import Mathlib

/-!
Verification of the `jamaica-dev-kit` repository's natural-language
specification against a shallow embedding of its Python sources.

The embedding follows the Python sources of
`toolkit/jamaica-trn`, `toolkit/jamaica-holidays`, `toolkit/jamaica-currency`,
`toolkit/jamaica-addresses` and `apps/addressing-api/app/parish_lookup.py`.
Strings are modelled as Lean `String`/`List Char` (ASCII semantics for the
character classes used by the regular expressions), numbers as `Nat`/`Int`,
and Python `float` arithmetic as exact rational arithmetic over `ℚ`.
-/

/-! ## Shared character and string helpers (Python semantics, ASCII range) -/

/-- Python `\s` on ASCII: space, tab, newline, carriage return, vertical tab, form feed. -/
def isPySpace (c : Char) : Bool :=
  c = ' ' || c = '\t' || c = '\n' || c = '\r' || c = '\x0b' || c = '\x0c'

/-- Python `\d` on ASCII. -/
def isPyDigit (c : Char) : Bool := '0' ≤ c && c ≤ '9'

/-- Python `\w` on ASCII: letters, digits, underscore. -/
def isPyWord (c : Char) : Bool :=
  ('a' ≤ c && c ≤ 'z') || ('A' ≤ c && c ≤ 'Z') || isPyDigit c || c = '_'

/-- ASCII lower-casing, Python `str.lower` restricted to ASCII. -/
def lowerChar (c : Char) : Char :=
  if 'A' ≤ c && c ≤ 'Z' then Char.ofNat (c.toNat + 32) else c

/-- Numeric value of a decimal digit character. -/
def digitVal (c : Char) : Nat := c.toNat - '0'.toNat

/-- Python `str.strip()` on a character list. -/
def stripChars (l : List Char) : List Char :=
  ((l.dropWhile isPySpace).reverse.dropWhile isPySpace).reverse

/-- Python `str.strip()`. -/
def pyStrip (s : String) : String := ⟨stripChars s.data⟩

/-- Python `str.lower()` (ASCII fragment). -/
def pyLower (s : String) : String := ⟨s.data.map lowerChar⟩

/-- Value of a list of decimal digit characters (most significant first). -/
def charsToNat (l : List Char) : Nat :=
  l.foldl (fun acc c => 10 * acc + digitVal c) 0

/-- Decimal digit character for `n < 10`. -/
def digitChar (n : Nat) : Char := Char.ofNat ('0'.toNat + n)

/-- Decimal digits of a natural number, most significant first, with explicit
fuel so that the kernel can evaluate it (the fuel `n + 1` always suffices). -/
def natCharsAux : Nat → Nat → List Char
  | 0, _ => []
  | fuel + 1, n =>
    if n < 10 then [digitChar n]
    else natCharsAux fuel (n / 10) ++ [digitChar (n % 10)]

/-- Decimal digits of a natural number, most significant first (no leading zeros). -/
def natChars (n : Nat) : List Char := natCharsAux (n + 1) n

/-- Python `str(n)` for a natural number. -/
def natStr (n : Nat) : String := ⟨natChars n⟩

/-! ## `jamaica-trn` (`jamaica_trn/__init__.py`) -/

/-- `_WEIGHTS = (3, 7, 1, 3, 7, 1, 3, 7)` -/
def trnWeights : List Nat := [3, 7, 1, 3, 7, 1, 3, 7]

/-- `_EIGHT_DIGITS = re.compile(r"^\d{8}$")` as a Boolean test.  Python's `$`
matches at the end of the string or just before one newline at the end, so the
pattern also accepts eight digits followed by a single trailing `'\n'`. -/
def eightDigits (s : String) : Bool :=
  (s.data.length = 8 && s.data.all isPyDigit) ||
  (s.data.length = 9 && (s.data.take 8).all isPyDigit && s.data.drop 8 = ['\n'])

/-- `_RAW_PATTERN = re.compile(r"^\d{9}$")` as a Boolean test, with the same
trailing-newline tolerance of `$`. -/
def nineDigits (s : String) : Bool :=
  (s.data.length = 9 && s.data.all isPyDigit) ||
  (s.data.length = 10 && (s.data.take 9).all isPyDigit && s.data.drop 9 = ['\n'])

/-- `unformat_trn`: strip whitespace, remove all dashes. -/
def unformat_trn (trn : String) : String :=
  ⟨(stripChars trn.data).filter (fun c => c ≠ '-')⟩

/-- `get_trn_check_digit`: weighted sum of the 8 digits mod 11; check digit is
`0` when the remainder is `0`, otherwise `11 - remainder`; `None` when the
input does not match `^\d{8}$` or the computed check digit is `10`.  `zip`
truncates at the 8 weights, so a tolerated trailing newline is ignored. -/
def get_trn_check_digit (digits : String) : Option Nat :=
  if eightDigits digits then
    let total := ((digits.data.zip trnWeights).map (fun p => digitVal p.1 * p.2)).sum
    let remainder := total % 11
    let check := if remainder = 0 then 0 else 11 - remainder
    if check = 10 then none else some check
  else none

/-- `is_valid_trn`: after `unformat_trn`, the raw form matches `^\d{9}$`
(nine digits, up to one trailing newline) and its 9th digit equals the
computed check digit of the first 8. -/
def is_valid_trn (trn : String) : Bool :=
  let raw := unformat_trn trn
  if nineDigits raw then
    match get_trn_check_digit ⟨raw.data.take 8⟩, (raw.data.drop 8).head? with
    | some expected, some c => digitVal c = expected
    | _, _ => false
  else false

/-! ## Properties of the TRN checksum (claim C4) -/

/-- The weighted sum named by the spec: `3*d1 + 7*d2 + 1*d3 + 3*d4 + 7*d5 + 1*d6 + 3*d7 + 7*d8`. -/
def trnSpecSum (c1 c2 c3 c4 c5 c6 c7 c8 : Char) : Nat :=
  3 * digitVal c1 + 7 * digitVal c2 + 1 * digitVal c3 + 3 * digitVal c4 +
  7 * digitVal c5 + 1 * digitVal c6 + 3 * digitVal c7 + 7 * digitVal c8

/-- Check-digit value the spec describes, as a partial function. -/
def trnSpecCheck (r : Nat) : Option Nat :=
  if r = 0 then some 0 else if 11 - r = 10 then none else some (11 - r)

/-- The validity predicate the spec describes for `is_valid_trn`. -/
def trnSpecValid (t : String) : Prop :=
  let raw := (stripChars t.data).filter (fun c => c ≠ '-')
  raw.length = 9 ∧ (∀ c ∈ raw, isPyDigit c = true) ∧
    ∃ c, (raw.drop 8).head? = some c ∧
      get_trn_check_digit ⟨raw.take 8⟩ = some (digitVal c)

instance (t : String) : Decidable (trnSpecValid t) := by
  unfold trnSpecValid
  exact inferInstance

/-- The amended validity predicate: Python's `$` also matches before one
trailing newline, so the raw dash-free form is nine digits optionally followed
by `'\n'`, with the 9th digit equal to the computed check digit. -/
def trnSpecValidAmended (t : String) : Prop :=
  let raw := (stripChars t.data).filter (fun c => c ≠ '-')
  (raw.length = 9 ∧ (∀ c ∈ raw, isPyDigit c = true) ∨
    raw.length = 10 ∧ (∀ c ∈ raw.take 9, isPyDigit c = true) ∧ raw.drop 9 = ['\n']) ∧
    ∃ c, (raw.drop 8).head? = some c ∧
      get_trn_check_digit ⟨raw.take 8⟩ = some (digitVal c)

instance (t : String) : Decidable (trnSpecValidAmended t) := by
  unfold trnSpecValidAmended
  exact inferInstance

/-- Auxiliary: `eightDigits` as a proposition. -/
theorem eightDigits_iff (s : String) :
    eightDigits s = true ↔
      (s.data.length = 8 ∧ ∀ c ∈ s.data, isPyDigit c = true) ∨
      (s.data.length = 9 ∧ (∀ c ∈ s.data.take 8, isPyDigit c = true) ∧
        s.data.drop 8 = ['\n']) := by
  simp [eightDigits, and_assoc]

/-- Auxiliary: `nineDigits` as a proposition. -/
theorem nineDigits_iff (s : String) :
    nineDigits s = true ↔
      (s.data.length = 9 ∧ ∀ c ∈ s.data, isPyDigit c = true) ∨
      (s.data.length = 10 ∧ (∀ c ∈ s.data.take 9, isPyDigit c = true) ∧
        s.data.drop 9 = ['\n']) := by
  simp [nineDigits, and_assoc]

/-- Auxiliary for C4: the validator's branch structure, over an arbitrary character list. -/
theorem valid_trn_aux (L : List Char) :
    (if nineDigits ⟨L⟩ then
      match get_trn_check_digit ⟨L.take 8⟩, (L.drop 8).head? with
      | some expected, some c => (decide (digitVal c = expected) : Bool)
      | _, _ => false
     else false) = true ↔
    ((L.length = 9 ∧ (∀ c ∈ L, isPyDigit c = true) ∨
      L.length = 10 ∧ (∀ c ∈ L.take 9, isPyDigit c = true) ∧ L.drop 9 = ['\n']) ∧
      ∃ c, (L.drop 8).head? = some c ∧
        get_trn_check_digit ⟨L.take 8⟩ = some (digitVal c)) := by
  by_cases h9 : nineDigits ⟨L⟩
  · rw [if_pos h9]
    have h9p : L.length = 9 ∧ (∀ c ∈ L, isPyDigit c = true) ∨
        L.length = 10 ∧ (∀ c ∈ L.take 9, isPyDigit c = true) ∧ L.drop 9 = ['\n'] :=
      (nineDigits_iff ⟨L⟩).mp h9
    rcases hg : get_trn_check_digit ⟨L.take 8⟩ with _ | e <;>
      rcases hh : (L.drop 8).head? with _ | c
    · show false = true ↔ _
      constructor
      · exact fun hfalse => Bool.noConfusion hfalse
      · rintro ⟨-, c, hc, -⟩
        exact Option.noConfusion hc
    · show false = true ↔ _
      constructor
      · exact fun hfalse => Bool.noConfusion hfalse
      · rintro ⟨-, c', -, hgc⟩
        exact Option.noConfusion hgc
    · show false = true ↔ _
      constructor
      · exact fun hfalse => Bool.noConfusion hfalse
      · rintro ⟨-, c', hc', -⟩
        exact Option.noConfusion hc'
    · show (decide (digitVal c = e) : Bool) = true ↔ _
      rw [decide_eq_true_eq]
      constructor
      · intro hde
        refine ⟨h9p, c, rfl, ?_⟩
        rw [hde]
      · rintro ⟨-, c', hc', hgc⟩
        injection hc' with h1
        injection hgc with h2
        subst h1
        exact h2.symm
  · rw [if_neg h9]
    simp only [Bool.false_eq_true, false_iff]
    intro hc
    exact h9 ((nineDigits_iff ⟨L⟩).mpr hc.1)

/-- C4 counterexample: Python's `$` matches just before a trailing newline, so
`get_trn_check_digit` accepts `"12345678\n"` (which is not a string of exactly
8 digits) and returns `4`, and `is_valid_trn` accepts `"123456784\n-"`, whose
stripped dash-free form `"123456784\n"` is not exactly 9 digits; both refute
the claim as stated. -/
theorem trn_newline_counterexample :
    get_trn_check_digit "12345678\n" = some 4 ∧
    ("12345678\n").data.length ≠ 8 ∧
    is_valid_trn "123456784\n-" = true ∧
    ¬ trnSpecValid "123456784\n-" := by
  refine ⟨by decide, by decide, by decide, ?_⟩
  intro h
  exact absurd h.1 (by decide)

/-- C4 (amended): for 8 decimal digits `d1..d8`, with or without one trailing
newline (Python's `$`), `get_trn_check_digit` returns `0` when `r = 0` and
`11 - r` otherwise, where `r` is the weighted sum
`3*d1+7*d2+1*d3+3*d4+7*d5+1*d6+3*d7+7*d8` mod 11, except `None` when the value
would be `10`; on any input matching neither form it returns `None`; and
`is_valid_trn t` is `True` iff `t`, after stripping surrounding whitespace and
removing dashes, is nine digits (again up to one trailing newline) whose 9th
digit equals the check digit computed from the first 8. -/
theorem trn_check_digit_and_validator_amended :
    (∀ c1 c2 c3 c4 c5 c6 c7 c8 : Char,
        (∀ c ∈ [c1, c2, c3, c4, c5, c6, c7, c8], isPyDigit c = true) →
        get_trn_check_digit ⟨[c1, c2, c3, c4, c5, c6, c7, c8]⟩ =
          trnSpecCheck (trnSpecSum c1 c2 c3 c4 c5 c6 c7 c8 % 11) ∧
        get_trn_check_digit ⟨[c1, c2, c3, c4, c5, c6, c7, c8, '\n']⟩ =
          trnSpecCheck (trnSpecSum c1 c2 c3 c4 c5 c6 c7 c8 % 11)) ∧
    (∀ s : String,
        ¬ ((s.data.length = 8 ∧ ∀ c ∈ s.data, isPyDigit c = true) ∨
           (s.data.length = 9 ∧ (∀ c ∈ s.data.take 8, isPyDigit c = true) ∧
             s.data.drop 8 = ['\n'])) →
        get_trn_check_digit s = none) ∧
    (∀ t : String, is_valid_trn t = true ↔ trnSpecValidAmended t) := by
  refine ⟨?_, ?_, ?_⟩
  · intro c1 c2 c3 c4 c5 c6 c7 c8 h
    have hd : eightDigits ⟨[c1, c2, c3, c4, c5, c6, c7, c8]⟩ = true := by
      rw [eightDigits_iff]
      exact Or.inl ⟨rfl, h⟩
    have htake : ([c1, c2, c3, c4, c5, c6, c7, c8, '\n'] : List Char).take 8 =
        [c1, c2, c3, c4, c5, c6, c7, c8] := rfl
    have hdrop : ([c1, c2, c3, c4, c5, c6, c7, c8, '\n'] : List Char).drop 8 =
        ['\n'] := rfl
    have hd2 : eightDigits ⟨[c1, c2, c3, c4, c5, c6, c7, c8, '\n']⟩ = true := by
      rw [eightDigits_iff]
      refine Or.inr ⟨rfl, ?_, hdrop⟩
      rw [htake]
      exact h
    have hsum : (((⟨[c1, c2, c3, c4, c5, c6, c7, c8]⟩ : String).data.zip trnWeights).map
        (fun p => digitVal p.1 * p.2)).sum = trnSpecSum c1 c2 c3 c4 c5 c6 c7 c8 := by
      simp only [trnWeights, trnSpecSum, List.zip_cons_cons, List.zip_nil_right,
        List.map_cons, List.map_nil, List.sum_cons, List.sum_nil]
      ring
    have hsum2 : (((⟨[c1, c2, c3, c4, c5, c6, c7, c8, '\n']⟩ : String).data.zip
        trnWeights).map (fun p => digitVal p.1 * p.2)).sum =
        trnSpecSum c1 c2 c3 c4 c5 c6 c7 c8 := by
      simp only [trnWeights, trnSpecSum, List.zip_cons_cons, List.zip_nil_right,
        List.map_cons, List.map_nil, List.sum_cons, List.sum_nil]
      ring
    constructor
    · unfold get_trn_check_digit
      rw [if_pos hd, hsum]
      by_cases hr : trnSpecSum c1 c2 c3 c4 c5 c6 c7 c8 % 11 = 0 <;>
        simp [trnSpecCheck, hr]
    · unfold get_trn_check_digit
      rw [if_pos hd2, hsum2]
      by_cases hr : trnSpecSum c1 c2 c3 c4 c5 c6 c7 c8 % 11 = 0 <;>
        simp [trnSpecCheck, hr]
  · intro s h
    have hd : eightDigits s = false := by
      rw [← Bool.not_eq_true, eightDigits_iff]
      exact h
    unfold get_trn_check_digit
    rw [hd]
    simp
  · intro t
    exact valid_trn_aux ((stripChars t.data).filter (fun c => c ≠ '-'))

/-- Witness for the amended C4 theorem at concrete inputs. -/
theorem trn_check_digit_and_validator_amended_witness :
    (get_trn_check_digit ⟨['1', '2', '3', '4', '5', '6', '7', '8']⟩ =
        trnSpecCheck (trnSpecSum '1' '2' '3' '4' '5' '6' '7' '8' % 11) ∧
      get_trn_check_digit ⟨['1', '2', '3', '4', '5', '6', '7', '8', '\n']⟩ =
        trnSpecCheck (trnSpecSum '1' '2' '3' '4' '5' '6' '7' '8' % 11)) ∧
      get_trn_check_digit "1234567" = none ∧
      (is_valid_trn "123-456-784" = true ↔ trnSpecValidAmended "123-456-784") :=
  ⟨trn_check_digit_and_validator_amended.1 '1' '2' '3' '4' '5' '6' '7' '8' (by decide),
   trn_check_digit_and_validator_amended.2.1 "1234567" (by decide),
   trn_check_digit_and_validator_amended.2.2 "123-456-784"⟩

/-! ## `jamaica-addresses`: data model and formatting
(`jamaica_addresses/__init__.py`) -/

/-- Python truthiness of an optional string field (`None` and `""` are falsy). -/
def strTruthy : Option String → Bool
  | none => false
  | some s => s ≠ ""

/-- Python truthiness of an optional integer field (`None` and `0` are falsy). -/
def natTruthy : Option Nat → Bool
  | none => false
  | some n => n ≠ 0

/-- Python `sep.join(parts)`. -/
def joinSep (sep : String) : List String → String
  | [] => ""
  | [x] => x
  | x :: y :: xs => x ++ sep ++ joinSep sep (y :: xs)

/-- `ParsedAddress` dataclass. -/
structure ParsedAddress where
  raw : String
  street_number : Option String := none
  street_name : Option String := none
  unit : Option String := none
  community : Option String := none
  district : Option String := none
  parish : Option String := none
  kingston_sector : Option Nat := none
deriving DecidableEq, Repr

/-- `normalize_address`: join the truthy components in display order. -/
def normalize_address (parsed : ParsedAddress) : String :=
  let parts : List String := []
  let parts := if strTruthy parsed.unit then parts ++ [parsed.unit.getD ""] else parts
  let parts :=
    if strTruthy parsed.street_number && strTruthy parsed.street_name then
      parts ++ [parsed.street_number.getD "" ++ " " ++ parsed.street_name.getD ""]
    else if strTruthy parsed.street_name then parts ++ [parsed.street_name.getD ""]
    else parts
  let parts := if strTruthy parsed.community then parts ++ [parsed.community.getD ""] else parts
  let parts :=
    if strTruthy parsed.district then parts ++ ["District of " ++ parsed.district.getD ""]
    else parts
  let parts :=
    if strTruthy parsed.parish then
      if natTruthy parsed.kingston_sector then
        parts ++ [parsed.parish.getD "" ++ " " ++ natStr (parsed.kingston_sector.getD 0)]
      else parts ++ [parsed.parish.getD ""]
    else parts
  joinSep ", " parts

/-- `format_address`: alias for `normalize_address` with identical output. -/
def format_address (parsed : ParsedAddress) : String :=
  normalize_address parsed

/-- C8: the two public formatting entry points `format_address` and
`normalize_address` are extensionally equal functions on `ParsedAddress`. -/
theorem format_address_eq_normalize_address :
    ∀ p : ParsedAddress, format_address p = normalize_address p :=
  fun _ => rfl

/-! ## `jamaica-holidays`: the Computus (`_compute_easter_sunday`) -/

/-- Two-digit zero-padded decimal representation (for months and days). -/
def pad2 (n : Nat) : List Char :=
  if n < 10 then '0' :: natChars n else natChars n

/-- Four-digit zero-padded decimal representation (ISO year field). -/
def pad4 (y : Nat) : List Char :=
  if y < 10 then '0' :: '0' :: '0' :: natChars y
  else if y < 100 then '0' :: '0' :: natChars y
  else if y < 1000 then '0' :: natChars y
  else natChars y

/-- `date.isoformat()`: `YYYY-MM-DD`. -/
def fmtYMD (y m d : Nat) : String :=
  ⟨pad4 y ++ '-' :: pad2 m ++ '-' :: pad2 d⟩

/-- `_compute_easter_sunday`, returning the `(month, day)` pair.  All
intermediate quantities are nonnegative, so Python's floor division and
modulus agree with `Nat` division and modulus here. -/
def computeEasterMonthDay (year : Nat) : Nat × Nat :=
  let a := year % 19
  let b := year / 100
  let c := year % 100
  let d := b / 4
  let e := b % 4
  let f := (b + 8) / 25
  let g := (b - f + 1) / 3
  let h := (19 * a + b - d - g + 15) % 30
  let i := c / 4
  let k := c % 4
  let l := (32 + 2 * e + 2 * i - h - k) % 7
  let m := (a + 11 * h + 22 * l) / 451
  ((h + l - 7 * m + 114) / 31, (h + l - 7 * m + 114) % 31 + 1)

/-- `get_easter_sunday`: Easter Sunday of the year, formatted `YYYY-MM-DD`. -/
def get_easter_sunday (year : Nat) : String :=
  let md := computeEasterMonthDay year
  fmtYMD year md.1 md.2

/-- The date the anonymous Gregorian Computus prescribes, transcribed from the
specification's own wording of the formula. -/
def easterSpecDate (y : Nat) : String :=
  let a := y % 19
  let b := y / 100
  let c := y % 100
  let d := b / 4
  let e := b % 4
  let f := (b + 8) / 25
  let g := (b - f + 1) / 3
  let h := (19 * a + b - d - g + 15) % 30
  let i := c / 4
  let k := c % 4
  let l := (32 + 2 * e + 2 * i - h - k) % 7
  let m := (a + 11 * h + 22 * l) / 451
  fmtYMD y ((h + l - 7 * m + 114) / 31) ((h + l - 7 * m + 114) % 31 + 1)

/-- C5: for every Gregorian year, `get_easter_sunday` returns exactly the date
prescribed by the anonymous Gregorian Computus, formatted `YYYY-MM-DD`. -/
theorem get_easter_sunday_matches_computus :
    ∀ y : Nat, get_easter_sunday y = easterSpecDate y :=
  fun _ => rfl

/-- Easter 2025 falls on April 20 (sanity instance of the Computus). -/
theorem get_easter_sunday_2025 : get_easter_sunday 2025 = "2025-04-20" := by decide

/-! ## `addressing-api` parish lookup (`app/parish_lookup.py`)

`find_parish` scans the parish records keeping the strictly closest one seen
so far (initial best distance `inf`), then rejects the result when the best
distance exceeds 150.  The haversine centre distance is modelled as an
abstract rational-valued distance function on the records; every property
below is proved for an arbitrary such function, so it holds in particular for
the haversine distance the code computes. -/

/-- The `for parish in parishes` loop of `find_parish`: the accumulator is
`None` initially (best distance infinite), and a record replaces it exactly
when its distance is strictly smaller. -/
def bestParish {α : Type} (dist : α → ℚ) : Option (α × ℚ) → List α → Option (α × ℚ)
  | acc, [] => acc
  | none, p :: rest => bestParish dist (some (p, dist p)) rest
  | some (b, bd), p :: rest =>
    if dist p < bd then bestParish dist (some (p, dist p)) rest
    else bestParish dist (some (b, bd)) rest

/-- `find_parish`: nearest record by the distance function, `None` when the
best distance exceeds 150 (km). -/
def find_parish {α : Type} (dist : α → ℚ) (parishes : List α) : Option α :=
  match bestParish dist none parishes with
  | none => none
  | some (b, bd) => if 150 < bd then none else some b

/-- What the specification says `find_parish` does: the earliest record of
minimum distance, or `None` when its distance exceeds 150 km. -/
def findParishSpec {α : Type} (dist : α → ℚ) (parishes : List α) : Option α :=
  match parishes.find? (fun p => decide (∀ q ∈ parishes, dist p ≤ dist q)) with
  | none => none
  | some p => if 150 < dist p then none else some p

/-- First-minimum selection extracted from the loop. -/
def chooseMin {α : Type} (dist : α → ℚ) : α → List α → α
  | a, [] => a
  | a, p :: rest =>
    if dist p < dist a then chooseMin dist p rest else chooseMin dist a rest

/-- The loop computes `chooseMin` together with its distance. -/
theorem bestParish_eq_chooseMin {α : Type} (dist : α → ℚ) :
    ∀ (l : List α) (a : α),
      bestParish dist (some (a, dist a)) l =
        some (chooseMin dist a l, dist (chooseMin dist a l)) := by
  intro l
  induction l with
  | nil => intro a; rfl
  | cons p rest ih =>
    intro a
    by_cases hlt : dist p < dist a <;> simp only [bestParish, chooseMin, hlt, if_pos, if_neg,
      if_true, if_false, ite_true, ite_false] <;> exact ih _

/-- `chooseMin` returns a member of the scanned list. -/
theorem chooseMin_mem {α : Type} (dist : α → ℚ) :
    ∀ (l : List α) (a : α), chooseMin dist a l ∈ a :: l := by
  intro l
  induction l with
  | nil => intro a; exact List.mem_singleton_self a
  | cons p rest ih =>
    intro a
    by_cases hlt : dist p < dist a <;>
      simp only [chooseMin, hlt, ite_true, ite_false]
    · exact List.mem_cons_of_mem a (ih p)
    · rcases List.mem_cons.mp (ih a) with h | h
      · rw [h]
        exact List.mem_cons_self a _
      · exact List.mem_cons_of_mem a (List.mem_cons_of_mem p h)

/-- `chooseMin` attains the minimum distance over the scanned list. -/
theorem chooseMin_min {α : Type} (dist : α → ℚ) :
    ∀ (l : List α) (a : α), ∀ q ∈ a :: l, dist (chooseMin dist a l) ≤ dist q := by
  intro l
  induction l with
  | nil =>
    intro a q hq
    rw [List.mem_singleton.mp hq]
    exact le_refl (dist a)
  | cons p rest ih =>
    intro a q hq
    rcases List.mem_cons.mp hq with h | hq2
    · by_cases hlt : dist p < dist a <;>
        simp only [chooseMin, hlt, ite_true, ite_false] <;> rw [h]
      · exact le_of_lt (lt_of_le_of_lt (ih p p (List.mem_cons_self p rest)) hlt)
      · exact ih a a (List.mem_cons_self a rest)
    · by_cases hlt : dist p < dist a <;>
        simp only [chooseMin, hlt, ite_true, ite_false]
      · exact ih p q hq2
      · rcases List.mem_cons.mp hq2 with h2 | h2
        · rw [h2]
          exact le_trans (ih a a (List.mem_cons_self a rest)) (not_lt.mp hlt)
        · exact ih a q (List.mem_cons_of_mem a h2)

theorem chooseMin_of_head_min {α : Type} (dist : α → ℚ) :
    ∀ (l : List α) (a : α), (∀ r ∈ l, dist a ≤ dist r) → chooseMin dist a l = a := by
  intro l
  induction l with
  | nil => intro a _; rfl
  | cons p rest ih =>
    intro a h
    have hp := h p (List.mem_cons_self p rest)
    simp only [chooseMin, not_lt.mpr hp, ite_false]
    exact ih a (fun r hr => h r (List.mem_cons_of_mem p hr))

theorem findq_congr {α : Type} :
    ∀ (l : List α) (p q : α → Bool), (∀ x ∈ l, p x = q x) → l.find? p = l.find? q := by
  intro l
  induction l with
  | nil => intro p q _; rfl
  | cons a rest ih =>
    intro p q h
    have ha := h a (List.mem_cons_self a rest)
    rw [List.find?_cons, List.find?_cons, ha, ih p q (fun x hx => h x (List.mem_cons_of_mem a hx))]

theorem find_first_min_eq_chooseMin {α : Type} (dist : α → ℚ) :
    ∀ (l : List α) (a : α),
      (a :: l).find? (fun p => decide (∀ q ∈ a :: l, dist p ≤ dist q)) =
        some (chooseMin dist a l) := by
  intro l
  induction l with
  | nil =>
    intro a
    have h1 : (decide (∀ q ∈ [a], dist a ≤ dist q)) = true := by simp
    rw [List.find?_cons]
    simp only [h1]
    rfl
  | cons p rest ih =>
    intro a
    by_cases hlt : dist p < dist a
    · have hPa : (decide (∀ q ∈ a :: p :: rest, dist a ≤ dist q)) = false := by
        simp only [decide_eq_false_iff_not]
        intro hall
        exact absurd (hall p (List.mem_cons_of_mem a (List.mem_cons_self p rest))) (not_le.mpr hlt)
      rw [List.find?_cons]
      simp only [hPa]
      have hcongr : ∀ x ∈ p :: rest,
          (fun y => decide (∀ q ∈ a :: p :: rest, dist y ≤ dist q)) x =
            (fun y => decide (∀ q ∈ p :: rest, dist y ≤ dist q)) x := by
        intro x _
        simp only [decide_eq_decide]
        constructor
        · intro hall q hq
          exact hall q (List.mem_cons_of_mem a hq)
        · intro hall q hq
          rcases List.mem_cons.mp hq with h | h
          · subst h
            exact le_of_lt (lt_of_le_of_lt (hall p (List.mem_cons_self p rest)) hlt)
          · exact hall q h
      rw [findq_congr _ _ _ hcongr, ih p]
      simp only [chooseMin, hlt, ite_true]
    · have hge : dist a ≤ dist p := not_lt.mp hlt
      by_cases hPa : ∀ q ∈ a :: p :: rest, dist a ≤ dist q
      · have hPat : (decide (∀ q ∈ a :: p :: rest, dist a ≤ dist q)) = true := decide_eq_true hPa
        simp only [List.find?_cons, hPat]
        have : chooseMin dist a (p :: rest) = a := by
          apply chooseMin_of_head_min
          intro r hr
          exact hPa r (List.mem_cons_of_mem a hr)
        rw [this]
      · have hviol : ∃ r ∈ rest, dist r < dist a := by
          by_contra hno
          push_neg at hno
          apply hPa
          intro q hq
          rcases List.mem_cons.mp hq with h | h
          · exact h ▸ le_refl _
          · rcases List.mem_cons.mp h with h2 | h2
            · exact h2 ▸ hge
            · exact hno q h2
        obtain ⟨r, hr, hrlt⟩ := hviol
        have hPaf : (decide (∀ q ∈ a :: p :: rest, dist a ≤ dist q)) = false :=
          decide_eq_false hPa
        have hPpf : (decide (∀ q ∈ a :: p :: rest, dist p ≤ dist q)) = false := by
          simp only [decide_eq_false_iff_not]
          intro hall
          have := hall r (List.mem_cons_of_mem a (List.mem_cons_of_mem p hr))
          exact absurd (lt_of_lt_of_le hrlt hge) (not_lt.mpr this)
        simp only [List.find?_cons, hPaf, hPpf]
        have hcongr : ∀ x ∈ rest,
            (fun y => decide (∀ q ∈ a :: p :: rest, dist y ≤ dist q)) x =
              (fun y => decide (∀ q ∈ a :: rest, dist y ≤ dist q)) x := by
          intro x _
          simp only [decide_eq_decide]
          constructor
          · intro hall q hq
            rcases List.mem_cons.mp hq with h | h
            · exact h ▸ hall a (List.mem_cons_self a _)
            · exact hall q (List.mem_cons_of_mem a (List.mem_cons_of_mem p h))
          · intro hall q hq
            rcases List.mem_cons.mp hq with h | h
            · exact h ▸ hall a (List.mem_cons_self a _)
            · rcases List.mem_cons.mp h with h2 | h2
              · subst h2
                exact le_trans (hall a (List.mem_cons_self a _)) hge
              · exact hall q (List.mem_cons_of_mem a h2)
        rw [findq_congr _ _ _ hcongr]
        have hIH := ih a
        have hPaf2 : (decide (∀ q ∈ a :: rest, dist a ≤ dist q)) = false := by
          simp only [decide_eq_false_iff_not]
          intro hall
          exact absurd (hall r (List.mem_cons_of_mem a hr)) (not_le.mpr hrlt)
        simp only [List.find?_cons, hPaf2] at hIH
        rw [hIH]
        simp only [chooseMin, hlt, ite_false]

/-- C2: `find_parish` returns the record whose centre has minimum distance to
the query point (earliest record in data order on ties), and returns `None`
exactly when that minimum distance exceeds 150 km.  `dist` abstracts the
haversine distance from the query coordinate to each record's centre. -/
theorem find_parish_nearest {α : Type} (dist : α → ℚ) (ps : List α) :
    find_parish dist ps = findParishSpec dist ps ∧
    (∀ b, find_parish dist ps = some b →
      b ∈ ps ∧ (∀ q ∈ ps, dist b ≤ dist q) ∧ dist b ≤ 150) ∧
    (ps ≠ [] → (find_parish dist ps = none ↔
      ∀ p ∈ ps, (∀ q ∈ ps, dist p ≤ dist q) → 150 < dist p)) := by
  rcases ps with _ | ⟨a, l⟩
  · refine ⟨rfl, ?_, ?_⟩
    · intro b hb
      exact Option.noConfusion hb
    · intro hne
      exact absurd rfl hne
  · have h0 : bestParish dist none (a :: l) =
        some (chooseMin dist a l, dist (chooseMin dist a l)) :=
      bestParish_eq_chooseMin dist l a
    have hfp : find_parish dist (a :: l) =
        if 150 < dist (chooseMin dist a l) then none else some (chooseMin dist a l) := by
      unfold find_parish
      rw [h0]
    have hsp : findParishSpec dist (a :: l) =
        if 150 < dist (chooseMin dist a l) then none else some (chooseMin dist a l) := by
      unfold findParishSpec
      rw [find_first_min_eq_chooseMin dist l a]
    refine ⟨hfp.trans hsp.symm, ?_, ?_⟩
    · intro b hb
      rw [hfp] at hb
      by_cases h150 : 150 < dist (chooseMin dist a l)
      · rw [if_pos h150] at hb
        exact Option.noConfusion hb
      · rw [if_neg h150] at hb
        have hbc : chooseMin dist a l = b := Option.some.inj hb
        subst hbc
        exact ⟨chooseMin_mem dist l a, chooseMin_min dist l a, not_lt.mp h150⟩
    · intro _
      rw [hfp]
      constructor
      · intro hnone
        by_cases h150 : 150 < dist (chooseMin dist a l)
        · intro p hp hmin
          have h1 : dist (chooseMin dist a l) ≤ dist p := chooseMin_min dist l a p hp
          have h2 : dist p ≤ dist (chooseMin dist a l) := hmin _ (chooseMin_mem dist l a)
          have : dist p = dist (chooseMin dist a l) := le_antisymm h2 h1
          rw [this]
          exact h150
        · rw [if_neg h150] at hnone
          exact Option.noConfusion hnone
      · intro hall
        rw [if_pos (hall _ (chooseMin_mem dist l a) (chooseMin_min dist l a))]

/-- Witness for C2 at a concrete record list and distance function. -/
theorem find_parish_nearest_witness :
    ((1 : ℚ) ∈ ([3, 1, 2] : List ℚ) ∧ (∀ q ∈ ([3, 1, 2] : List ℚ), (1 : ℚ) ≤ q) ∧
      (1 : ℚ) ≤ 150) ∧
    (find_parish (fun q : ℚ => q) [3, 1, 2] = none ↔
      ∀ p ∈ ([3, 1, 2] : List ℚ), (∀ q ∈ ([3, 1, 2] : List ℚ), p ≤ q) → 150 < p) :=
  ⟨(find_parish_nearest (fun q : ℚ => q) [3, 1, 2]).2.1 1 (by decide),
   (find_parish_nearest (fun q : ℚ => q) [3, 1, 2]).2.2 (by decide)⟩

/-! ## `jamaica-currency` (`jamaica_currency/__init__.py`)

Python `float` arithmetic is modelled as exact arithmetic over `ℚ`. -/

/-- `FormatOptions` dataclass. -/
structure FormatOptions where
  show_symbol : Bool
  decimals : Nat
  use_grouping : Bool
deriving DecidableEq, Repr

/-- The default `FormatOptions()`. -/
def defaultFormatOptions : FormatOptions := ⟨true, 2, true⟩

/-- `_round_to`: round half away from zero at `decimals` places (the Python
code applies it to nonnegative inputs, where `floor (v * f + 0.5) / f` is
exactly round-half-up). -/
def round_to (value : ℚ) (decimals : Nat) : ℚ :=
  ((⌊value * 10 ^ decimals + 1 / 2⌋ : ℤ) : ℚ) / 10 ^ decimals

/-- Left-pad with `'0'` to width `w` (fixed-point fraction digits). -/
def padZeros (w : Nat) (l : List Char) : List Char :=
  List.replicate (w - l.length) '0' ++ l

/-- The comma-grouping loop of `_format_absolute`: iterates over the reversed
integer digits with a counter, inserting `','` before every third digit. -/
def groupAux : List Char → Nat → List Char → List Char
  | [], _, acc => acc
  | c :: rest, i, acc =>
    groupAux rest (i + 1) (c :: (if 0 < i ∧ i % 3 = 0 then ',' :: acc else acc))

/-- `_format_absolute`: round, render with exactly `decimals` fraction digits,
and optionally comma-group the integer part. -/
def format_absolute (abs_value : ℚ) (decimals : Nat) (use_grouping : Bool) : List Char :=
  let rounded := round_to abs_value decimals
  let k := (⌊rounded * 10 ^ decimals⌋).toNat
  let intChars := natChars (k / 10 ^ decimals)
  let fracChars := padZeros decimals (natChars (k % 10 ^ decimals))
  let fracTail := if decimals = 0 then [] else '.' :: fracChars
  if use_grouping then groupAux intChars.reverse 0 [] ++ fracTail
  else intChars ++ fracTail

/-- `format_jmd`. -/
def format_jmd (amount : ℚ) (options : FormatOptions) : String :=
  let is_negative := amount < 0
  let abs_val := |amount|
  let formatted := format_absolute abs_val options.decimals options.use_grouping
  let symbol := if options.show_symbol then "J$" else ""
  let sign := if is_negative then "-" else ""
  sign ++ symbol ++ ⟨formatted⟩

/-- `^\d+(\.\d+)?$` as a Boolean test. -/
def validNumChars (l : List Char) : Bool :=
  let ip := l.takeWhile isPyDigit
  let rest := l.drop ip.length
  decide (ip ≠ []) &&
    (decide (rest = []) ||
      (decide (rest.head? = some '.') && decide (rest.drop 1 ≠ []) &&
        (rest.drop 1).all isPyDigit))

/-- Exact value of a validated decimal numeral `\d+(\.\d+)?`. -/
def numValue (l : List Char) : ℚ :=
  let ip := l.takeWhile isPyDigit
  let frac := (l.drop ip.length).drop 1
  (charsToNat ip : ℚ) + (charsToNat frac : ℚ) / 10 ^ frac.length

/-- `parse_jmd`. -/
def parse_jmd (formatted : String) : Option ℚ :=
  let s0 := stripChars formatted.data
  if s0 = [] then none
  else
    let negative := s0.head? = some '-'
    let s1 := if s0.head? = some '-' then stripChars (s0.drop 1) else s0
    let s2 := if s1.take 2 = ['J', '$'] then stripChars (s1.drop 2) else s1
    if s2 = [] then none
    else
      let s3 := s2.filter (fun c => c ≠ ',')
      if validNumChars s3 then
        some (if negative then -(numValue s3) else numValue s3)
      else none

/-- The specification's round-trip value: `x` rounded to 2 decimal places,
half away from zero. -/
def roundHalfAwayFromZero2 (x : ℚ) : ℚ :=
  (if x < 0 then -1 else 1) * ((⌊|x| * 100 + 1 / 2⌋ : ℤ) : ℚ) / 100

/-! ### Digit-string lemmas for the currency round trip -/

/-- Value and digit-class of `digitChar`. -/
theorem digitChar_props : ∀ m : Nat, m < 10 →
    digitVal (digitChar m) = m ∧ isPyDigit (digitChar m) = true := by
  intro m hm
  interval_cases m <;> exact ⟨rfl, rfl⟩

/-- A decimal digit character is not a comma. -/
theorem pyDigit_ne_comma {c : Char} (h : isPyDigit c = true) : c ≠ ',' := by
  intro hc
  subst hc
  exact absurd h (by decide)

/-- A decimal digit character is not a space. -/
theorem pyDigit_not_space {c : Char} (h : isPyDigit c = true) : isPySpace c = false := by
  by_contra hs
  rw [Bool.not_eq_false] at hs
  simp only [isPySpace, Bool.or_eq_true, decide_eq_true_eq] at hs
  rcases hs with ((((h1 | h1) | h1) | h1) | h1) | h1 <;> subst h1 <;> exact absurd h (by decide)

/-- `charsToNat` over a snoc. -/
theorem charsToNat_append_digit (l : List Char) (c : Char) :
    charsToNat (l ++ [c]) = 10 * charsToNat l + digitVal c := by
  simp [charsToNat, List.foldl_append]

/-- Leading zeros do not change the numeric value. -/
theorem charsToNat_replicate_zero (n : Nat) (l : List Char) :
    charsToNat (List.replicate n '0' ++ l) = charsToNat l := by
  induction n with
  | zero => rfl
  | succ n ih =>
    rw [List.replicate_succ, List.cons_append]
    show List.foldl _ (10 * 0 + digitVal '0') _ = _
    exact ih

/-- `natCharsAux` with sufficient fuel: digits only, nonempty, value-correct. -/
theorem natCharsAux_spec : ∀ fuel n : Nat, n < fuel →
    (∀ c ∈ natCharsAux fuel n, isPyDigit c = true) ∧ natCharsAux fuel n ≠ [] ∧
      charsToNat (natCharsAux fuel n) = n := by
  intro fuel
  induction fuel with
  | zero => intro n hn; omega
  | succ fuel ih =>
    intro n hn
    by_cases h10 : n < 10
    · simp only [natCharsAux, h10, ite_true]
      refine ⟨?_, by simp, ?_⟩
      · intro c hc
        rw [List.mem_singleton.mp hc]
        exact (digitChar_props n h10).2
      · show 10 * 0 + digitVal (digitChar n) = n
        rw [(digitChar_props n h10).1]
        omega
    · simp only [natCharsAux, h10, ite_false]
      have hlt : n / 10 < fuel := by omega
      obtain ⟨hdig, hne, hval⟩ := ih (n / 10) hlt
      have hm : n % 10 < 10 := Nat.mod_lt n (by omega)
      refine ⟨?_, by simp, ?_⟩
      · intro c hc
        rcases List.mem_append.mp hc with h | h
        · exact hdig c h
        · rw [List.mem_singleton.mp h]
          exact (digitChar_props _ hm).2
      · rw [charsToNat_append_digit, hval, (digitChar_props _ hm).1]
        omega

/-- `natChars` produces a nonempty all-digit numeral with the right value. -/
theorem natChars_spec (n : Nat) :
    (∀ c ∈ natChars n, isPyDigit c = true) ∧ natChars n ≠ [] ∧
      charsToNat (natChars n) = n :=
  natCharsAux_spec (n + 1) n (Nat.lt_succ_self n)

/-- Numbers below 100 need at most two digits. -/
theorem natChars_length_le_two (n : Nat) (h : n < 100) : (natChars n).length ≤ 2 := by
  unfold natChars
  by_cases h10 : n < 10
  · simp [natCharsAux, h10]
  · have hq : n / 10 < 10 := by omega
    obtain ⟨f, hf⟩ : ∃ f, n = f + 1 := ⟨n - 1, by omega⟩
    subst hf
    simp only [natCharsAux, h10, ite_false]
    rw [List.length_append, if_pos hq]
    simp

/-- `padZeros` fixes the length when the input is short enough. -/
theorem padZeros_length (w : Nat) (l : List Char) (h : l.length ≤ w) :
    (padZeros w l).length = w := by
  simp [padZeros]
  omega

/-- `takeWhile`/`drop` through an append that stops exactly at `d`. -/
theorem takeWhile_append_stop (p : Char → Bool) :
    ∀ (l : List Char) (d : Char) (m : List Char), (∀ c ∈ l, p c = true) → p d = false →
      (l ++ d :: m).takeWhile p = l := by
  intro l
  induction l with
  | nil =>
    intro d m _ hd
    simp [List.takeWhile_cons, hd]
  | cons c rest ih =>
    intro d m hall hd
    rw [List.cons_append, List.takeWhile_cons, hall c (List.mem_cons_self c rest)]
    rw [ih d m (fun x hx => hall x (List.mem_cons_of_mem c hx)) hd]
    simp

/-- `dropWhile` is the identity when no member satisfies the predicate. -/
theorem dropWhile_eq_self_of_none (p : Char → Bool) (l : List Char)
    (h : ∀ c ∈ l, p c = false) : l.dropWhile p = l := by
  cases l with
  | nil => rfl
  | cons c rest =>
    rw [List.dropWhile_cons, h c (List.mem_cons_self c rest)]
    simp

/-- `stripChars` is the identity on space-free strings. -/
theorem stripChars_eq_self (l : List Char) (h : ∀ c ∈ l, isPySpace c = false) :
    stripChars l = l := by
  unfold stripChars
  rw [dropWhile_eq_self_of_none _ l h]
  rw [dropWhile_eq_self_of_none _ l.reverse (fun c hc => h c (List.mem_reverse.mp hc))]
  exact List.reverse_reverse l

/-- Members of the comma-grouping loop's output. -/
theorem groupAux_mem : ∀ (rl : List Char) (i : Nat) (acc : List Char) (c : Char),
    c ∈ groupAux rl i acc → c ∈ rl ∨ c = ',' ∨ c ∈ acc := by
  intro rl
  induction rl with
  | nil =>
    intro i acc c hc
    exact Or.inr (Or.inr hc)
  | cons d rest ih =>
    intro i acc c hc
    rcases ih (i + 1) _ c hc with h | h | h
    · exact Or.inl (List.mem_cons_of_mem d h)
    · exact Or.inr (Or.inl h)
    · rcases List.mem_cons.mp h with h2 | h2
      · exact Or.inl (h2 ▸ List.mem_cons_self d rest)
      · by_cases hcond : 0 < i ∧ i % 3 = 0
        · rw [if_pos hcond] at h2
          rcases List.mem_cons.mp h2 with h3 | h3
          · exact Or.inr (Or.inl h3)
          · exact Or.inr (Or.inr h3)
        · rw [if_neg hcond] at h2
          exact Or.inr (Or.inr h2)

/-- Removing commas from the grouped digits restores the digits. -/
theorem groupAux_filter : ∀ (rl : List Char) (i : Nat) (acc : List Char),
    (∀ c ∈ rl, c ≠ ',') →
    (groupAux rl i acc).filter (fun c => c ≠ ',') =
      rl.reverse ++ acc.filter (fun c => c ≠ ',') := by
  intro rl
  induction rl with
  | nil =>
    intro i acc _
    rfl
  | cons d rest ih =>
    intro i acc hall
    show (groupAux rest (i + 1) _).filter _ = _
    rw [ih (i + 1) _ (fun x hx => hall x (List.mem_cons_of_mem d hx))]
    have hd : d ≠ ',' := hall d (List.mem_cons_self d rest)
    have hfilter : (d :: (if 0 < i ∧ i % 3 = 0 then ',' :: acc else acc)).filter
        (fun c => c ≠ ',') = d :: acc.filter (fun c => c ≠ ',') := by
      by_cases hcond : 0 < i ∧ i % 3 = 0 <;>
        simp [hcond, List.filter_cons, hd]
    rw [hfilter, List.reverse_cons, List.append_assoc]
    rfl

/-- All characters of the rendered absolute value (digits, commas, the dot). -/
theorem format_absolute_chars (k : ℕ) :
    ∀ c ∈ groupAux (natChars (k / 100)).reverse 0 [] ++
        '.' :: padZeros 2 (natChars (k % 100)),
      isPyDigit c = true ∨ c = ',' ∨ c = '.' := by
  intro c hc
  rcases List.mem_append.mp hc with h | h
  · rcases groupAux_mem _ _ _ _ h with h2 | h2 | h2
    · exact Or.inl ((natChars_spec (k / 100)).1 c (List.mem_reverse.mp h2))
    · exact Or.inr (Or.inl h2)
    · exact absurd h2 (List.not_mem_nil c)
  · rcases List.mem_cons.mp h with h2 | h2
    · exact Or.inr (Or.inr h2)
    · rcases List.mem_append.mp h2 with h3 | h3
      · exact Or.inl (by rw [List.eq_of_mem_replicate h3]; rfl)
      · exact Or.inl ((natChars_spec (k % 100)).1 c h3)

/-- Comma removal turns the grouped rendering back into the plain numeral. -/
theorem format_absolute_filter (k : ℕ) :
    (groupAux (natChars (k / 100)).reverse 0 [] ++
        '.' :: padZeros 2 (natChars (k % 100))).filter (fun c => c ≠ ',') =
      natChars (k / 100) ++ '.' :: padZeros 2 (natChars (k % 100)) := by
  rw [List.filter_append]
  have h1 : (groupAux (natChars (k / 100)).reverse 0 []).filter (fun c => c ≠ ',') =
      natChars (k / 100) := by
    rw [groupAux_filter _ 0 [] (fun c hc =>
      pyDigit_ne_comma ((natChars_spec (k / 100)).1 c (List.mem_reverse.mp hc)))]
    simp
  have h2 : ('.' :: padZeros 2 (natChars (k % 100))).filter (fun c => c ≠ ',') =
      '.' :: padZeros 2 (natChars (k % 100)) := by
    rw [List.filter_eq_self]
    intro c hc
    rcases List.mem_cons.mp hc with h | h
    · subst h
      decide
    · rcases List.mem_append.mp h with h3 | h3
      · rw [List.eq_of_mem_replicate h3]
        decide
      · simp only [decide_eq_true_eq]
        exact pyDigit_ne_comma ((natChars_spec (k % 100)).1 c h3)
  rw [h1, h2]

/-- The plain numeral passes the `^\d+(\.\d+)?$` check and evaluates to `k/100`. -/
theorem plain_numeral_value (k : ℕ) :
    validNumChars (natChars (k / 100) ++ '.' :: padZeros 2 (natChars (k % 100))) = true ∧
    numValue (natChars (k / 100) ++ '.' :: padZeros 2 (natChars (k % 100))) = (k : ℚ) / 100 := by
  have hdig : ∀ c ∈ natChars (k / 100), isPyDigit c = true := (natChars_spec (k / 100)).1
  have hdot : isPyDigit '.' = false := by decide
  have htake : (natChars (k / 100) ++ '.' :: padZeros 2 (natChars (k % 100))).takeWhile
      isPyDigit = natChars (k / 100) :=
    takeWhile_append_stop isPyDigit _ '.' _ hdig hdot
  have hlen2 : (padZeros 2 (natChars (k % 100))).length = 2 :=
    padZeros_length 2 _ (natChars_length_le_two _ (Nat.mod_lt k (by omega)))
  have hdrop : (natChars (k / 100) ++ '.' :: padZeros 2 (natChars (k % 100))).drop
      (natChars (k / 100)).length = '.' :: padZeros 2 (natChars (k % 100)) :=
    List.drop_left _ _
  have hpadval : charsToNat (padZeros 2 (natChars (k % 100))) = k % 100 := by
    unfold padZeros
    rw [charsToNat_replicate_zero, (natChars_spec (k % 100)).2.2]
  constructor
  · unfold validNumChars
    simp only [htake, hdrop]
    simp only [Bool.and_eq_true, Bool.or_eq_true, decide_eq_true_eq]
    refine ⟨(natChars_spec (k / 100)).2.1, Or.inr ⟨⟨rfl, ?_⟩, ?_⟩⟩
    · show ('.' :: padZeros 2 (natChars (k % 100))).drop 1 ≠ []
      rw [List.drop_one, List.tail_cons]
      intro hc
      rw [hc] at hlen2
      exact absurd hlen2 (by decide)
    · rw [List.drop_one, List.tail_cons, List.all_eq_true]
      intro c hc
      rcases List.mem_append.mp hc with h3 | h3
      · rw [List.eq_of_mem_replicate h3]
        rfl
      · exact (natChars_spec (k % 100)).1 c h3
  · unfold numValue
    simp only [htake, hdrop]
    rw [List.drop_one, List.tail_cons, hpadval, hlen2, (natChars_spec (k / 100)).2.2]
    have hsplit : (k : ℚ) = 100 * ((k / 100 : ℕ) : ℚ) + ((k % 100 : ℕ) : ℚ) := by
      rw [← Nat.cast_ofNat, ← Nat.cast_mul, ← Nat.cast_add]
      norm_cast
      omega
    rw [hsplit]
    ring

/-- Evaluation of `parse_jmd` on the exact shapes `format_jmd` produces. -/
theorem parse_jmd_eval (F : List Char)
    (hsp : ∀ c ∈ F, isPySpace c = false) (hne : F ≠ [])
    (hvalid : validNumChars (F.filter (fun c => c ≠ ',')) = true) :
    parse_jmd ⟨'-' :: 'J' :: '$' :: F⟩ = some (-(numValue (F.filter (fun c => c ≠ ',')))) ∧
    parse_jmd ⟨'J' :: '$' :: F⟩ = some (numValue (F.filter (fun c => c ≠ ','))) := by
  have hs1 : ∀ c ∈ 'J' :: '$' :: F, isPySpace c = false := by
    intro c hc
    rcases List.mem_cons.mp hc with h | h
    · rw [h]; rfl
    · rcases List.mem_cons.mp h with h2 | h2
      · rw [h2]; rfl
      · exact hsp c h2
  have hs2 : ∀ c ∈ '-' :: 'J' :: '$' :: F, isPySpace c = false := by
    intro c hc
    rcases List.mem_cons.mp hc with h | h
    · rw [h]; rfl
    · exact hs1 c h
  have hstrip2 : stripChars ('-' :: 'J' :: '$' :: F) = '-' :: 'J' :: '$' :: F :=
    stripChars_eq_self _ hs2
  have hstrip1 : stripChars ('J' :: '$' :: F) = 'J' :: '$' :: F :=
    stripChars_eq_self _ hs1
  have hstripF : stripChars F = F := stripChars_eq_self _ hsp
  constructor
  · unfold parse_jmd
    simp only [hstrip2, hstrip1, hstripF, List.head?_cons, List.drop_succ_cons,
      List.drop_zero, List.take_succ_cons, List.take_zero, List.cons_ne_nil, ite_true,
      ite_false, reduceIte, hvalid, if_true, if_false, hne, ne_eq, not_false_eq_true]
  · unfold parse_jmd
    have hJ : (some 'J' = some '-') = False := by simp
    simp only [hstrip1, hstripF, List.head?_cons, List.drop_succ_cons, hJ,
      List.drop_zero, List.take_succ_cons, List.take_zero, List.cons_ne_nil, ite_true,
      ite_false, reduceIte, hvalid, if_true, if_false, hne, ne_eq, not_false_eq_true]

/-- Shape of `format_absolute` at the default 2 decimals with grouping. -/
theorem format_absolute_default (v : ℚ) :
    format_absolute v 2 true =
      groupAux (natChars ((⌊v * 10 ^ 2 + 1 / 2⌋).toNat / 10 ^ 2)).reverse 0 [] ++
        '.' :: padZeros 2 (natChars ((⌊v * 10 ^ 2 + 1 / 2⌋).toNat % 10 ^ 2)) := by
  unfold format_absolute round_to
  have hk : ⌊((⌊v * 10 ^ 2 + 1 / 2⌋ : ℚ) / 10 ^ 2) * 10 ^ 2⌋ = ⌊v * 10 ^ 2 + 1 / 2⌋ := by
    rw [div_mul_cancel₀]
    · exact Int.floor_intCast _
    · norm_num
  simp only [hk, ite_true, ite_false, reduceIte]
  norm_num

/-- C9: for every amount `x`, `parse_jmd (format_jmd x)` (default options)
returns exactly `x` rounded to 2 decimal places half away from zero; in
particular the round trip is the identity on every amount expressible with at
most 2 decimal places. -/
theorem parse_format_jmd_roundtrip :
    (∀ x : ℚ, parse_jmd (format_jmd x defaultFormatOptions) =
      some (roundHalfAwayFromZero2 x)) ∧
    (∀ x : ℚ, (∃ j : ℤ, x = (j : ℚ) / 100) →
      parse_jmd (format_jmd x defaultFormatOptions) = some x) := by
  have main : ∀ x : ℚ, parse_jmd (format_jmd x defaultFormatOptions) =
      some (roundHalfAwayFromZero2 x) := by
    intro x
    have hm0 : (0 : ℤ) ≤ ⌊|x| * 10 ^ 2 + 1 / 2⌋ := by
      apply Int.floor_nonneg.mpr
      positivity
    set k : ℕ := (⌊|x| * 10 ^ 2 + 1 / 2⌋).toNat with hkdef
    have hkcast : ((k : ℤ) : ℚ) = ((⌊|x| * 10 ^ 2 + 1 / 2⌋ : ℤ) : ℚ) := by
      rw [hkdef, Int.toNat_of_nonneg hm0]
    have hF : format_absolute |x| 2 true =
        groupAux (natChars (k / 10 ^ 2)).reverse 0 [] ++
          '.' :: padZeros 2 (natChars (k % 10 ^ 2)) := format_absolute_default |x|
    have hpow : (10 : ℕ) ^ 2 = 100 := by norm_num
    rw [hpow] at hF
    have hsp := (fun c hc => by
      rcases format_absolute_chars k c hc with h | h | h
      · exact pyDigit_not_space h
      · rw [h]; rfl
      · rw [h]; rfl :
      ∀ c ∈ groupAux (natChars (k / 100)).reverse 0 [] ++
        '.' :: padZeros 2 (natChars (k % 100)), isPySpace c = false)
    have hne : groupAux (natChars (k / 100)).reverse 0 [] ++
        '.' :: padZeros 2 (natChars (k % 100)) ≠ [] := by
      intro hc
      have := List.append_eq_nil.mp hc
      exact absurd this.2 (List.cons_ne_nil _ _)
    have hfilter := format_absolute_filter k
    have hvalid : validNumChars ((groupAux (natChars (k / 100)).reverse 0 [] ++
        '.' :: padZeros 2 (natChars (k % 100))).filter (fun c => c ≠ ',')) = true := by
      rw [hfilter]
      exact (plain_numeral_value k).1
    have hval : numValue ((groupAux (natChars (k / 100)).reverse 0 [] ++
        '.' :: padZeros 2 (natChars (k % 100))).filter (fun c => c ≠ ',')) = (k : ℚ) / 100 := by
      rw [hfilter]
      exact (plain_numeral_value k).2
    obtain ⟨hparseNeg, hparsePos⟩ := parse_jmd_eval _ hsp hne hvalid
    have hspec : roundHalfAwayFromZero2 x =
        (if x < 0 then -1 else 1) * ((k : ℤ) : ℚ) / 100 := by
      unfold roundHalfAwayFromZero2
      rw [hkcast]
      norm_num
    by_cases hneg : x < 0
    · have hfmt : format_jmd x defaultFormatOptions =
          ⟨'-' :: 'J' :: '$' :: (groupAux (natChars (k / 100)).reverse 0 [] ++
            '.' :: padZeros 2 (natChars (k % 100)))⟩ := by
        unfold format_jmd
        simp only [defaultFormatOptions, hF, hneg, ite_true, ite_false, reduceIte]
        rfl
      rw [hfmt, hparseNeg, hval, hspec, if_pos hneg]
      congr 1
      push_cast
      ring
    · have hfmt : format_jmd x defaultFormatOptions =
          ⟨'J' :: '$' :: (groupAux (natChars (k / 100)).reverse 0 [] ++
            '.' :: padZeros 2 (natChars (k % 100)))⟩ := by
        unfold format_jmd
        simp only [defaultFormatOptions, hF, hneg, ite_true, ite_false, reduceIte]
        rfl
      rw [hfmt, hparsePos, hval, hspec, if_neg hneg]
      congr 1
      push_cast
      ring
  refine ⟨main, ?_⟩
  intro x ⟨j, hj⟩
  rw [main x]
  congr 1
  unfold roundHalfAwayFromZero2
  subst hj
  have habs : |(j : ℚ) / 100| * 100 = ((|j| : ℤ) : ℚ) := by
    rw [abs_div]
    push_cast
    norm_num
  rw [habs]
  have hfloor : ⌊((|j| : ℤ) : ℚ) + 1 / 2⌋ = |j| := by
    rw [Int.floor_eq_iff]
    constructor
    · push_cast
      linarith
    · push_cast
      linarith
  rw [hfloor]
  by_cases hj0 : (j : ℚ) / 100 < 0
  · rw [if_pos hj0]
    have hjneg : j < 0 := by
      by_contra hc
      push_neg at hc
      have : (0 : ℚ) ≤ (j : ℚ) / 100 := by positivity
      linarith
    rw [abs_of_neg hjneg]
    push_cast
    ring
  · rw [if_neg hj0]
    have hjpos : 0 ≤ j := by
      by_contra hc
      push_neg at hc
      have h1 : (j : ℚ) < 0 := by exact_mod_cast hc
      have : (j : ℚ) / 100 < 0 := by
        apply div_neg_of_neg_of_pos h1
        norm_num
      exact hj0 this
    rw [abs_of_nonneg hjpos]
    push_cast
    ring

/-- Witness for C9 at the concrete amount `1234.56`. -/
theorem parse_format_jmd_roundtrip_witness :
    (∃ j : ℤ, (123456 / 100 : ℚ) = (j : ℚ) / 100) ∧
    parse_jmd (format_jmd (123456 / 100 : ℚ) defaultFormatOptions) =
      some (123456 / 100 : ℚ) :=
  ⟨⟨123456, by norm_num⟩,
   parse_format_jmd_roundtrip.2 (123456 / 100 : ℚ) ⟨123456, by norm_num⟩⟩

/-! ## `jamaica-addresses`: regular-expression machinery

The four patterns of the module (`_KINGSTON_SECTOR_RE`, the `Saint`/`St`
normalizer, `_UNIT_RE`, `_DISTRICT_RE`, `_STREET_NUMBER_RE`) are embedded as
explicit scanners over character lists with Python `re` semantics (ASCII
character classes, leftmost match, greedy quantifiers with backtracking). -/

/-- ASCII letter. -/
def isAsciiLetter (c : Char) : Bool :=
  ('a' ≤ c && c ≤ 'z') || ('A' ≤ c && c ≤ 'Z')

/-- Word boundary against the previous character (`none` = start of string). -/
def boundaryOK : Option Char → Bool
  | none => true
  | some p => !isPyWord p

/-- Tail of `\bKingston\s*(\d{1,2})\b` after the literal: greedy `\s*`, then a
1-2 digit group whose end lies on a word boundary (a maximal digit run of
length 3 or more can never satisfy the boundary, matching the regex's
backtracking). -/
def kingstonTail (l : List Char) : Option Nat :=
  let rest := l.dropWhile isPySpace
  let digits := rest.takeWhile isPyDigit
  let after := rest.drop digits.length
  if digits.length = 1 ∨ digits.length = 2 then
    if (match after.head? with | none => true | some c => !isPyWord c) then
      some (charsToNat digits)
    else none
  else none

/-- `re.search` for `_KINGSTON_SECTOR_RE`: leftmost position with a word
boundary where the case-insensitive literal `kingston` and the tail match. -/
def kingstonSearchAux : Option Char → List Char → Option Nat
  | _, [] => none
  | prev, c :: rest =>
    if boundaryOK prev && ((c :: rest).take 8).map lowerChar == "kingston".data then
      match kingstonTail ((c :: rest).drop 8) with
      | some n => some n
      | none => kingstonSearchAux (some c) rest
    else kingstonSearchAux (some c) rest

/-- Search the whole string for the Kingston sector pattern. -/
def kingstonSearch (l : List Char) : Option Nat := kingstonSearchAux none l

/-- `get_kingston_sector`: regex search, then the 1-20 range check. -/
def get_kingston_sector (address : String) : Option Nat :=
  match kingstonSearch address.data with
  | none => none
  | some sector => if sector < 1 ∨ 20 < sector then none else some sector

/-- Length matched by `(Saint|St)\s+` (case-insensitive) at the head of `l`:
`Saint` is tried first; since `St` requires a `t` where `Saint` has `a`, the
alternation never matches both. -/
def matchSaintLen (l : List Char) : Option Nat :=
  if (l.take 5).map lowerChar = "saint".data then
    (let sp := (l.drop 5).takeWhile isPySpace
     if sp = [] then none else some (5 + sp.length))
  else if (l.take 2).map lowerChar = "st".data then
    (let sp := (l.drop 2).takeWhile isPySpace
     if sp = [] then none else some (2 + sp.length))
  else none

/-- A successful `(Saint|St)\s+` match consumes at least 3 characters. -/
theorem matchSaintLen_ge_three {l : List Char} {k : Nat}
    (h : matchSaintLen l = some k) : 3 ≤ k := by
  unfold matchSaintLen at h
  by_cases h5 : (l.take 5).map lowerChar = "saint".data
  · rw [if_pos h5] at h
    by_cases hsp : ((l.drop 5).takeWhile isPySpace) = []
    · rw [if_pos hsp] at h
      exact Option.noConfusion h
    · rw [if_neg hsp] at h
      have := Option.some.inj h
      omega
  · rw [if_neg h5] at h
    by_cases h2 : (l.take 2).map lowerChar = "st".data
    · rw [if_pos h2] at h
      by_cases hsp : ((l.drop 2).takeWhile isPySpace) = []
      · rw [if_pos hsp] at h
        exact Option.noConfusion h
      · rw [if_neg hsp] at h
        have h3 := Option.some.inj h
        have h4 : ((l.drop 2).takeWhile isPySpace).length ≠ 0 := by
          intro hc
          exact hsp (List.eq_nil_of_length_eq_zero hc)
        omega
    · rw [if_neg h2] at h
      exact Option.noConfusion h

/-- `re.sub(r"\b(Saint|St)\s+", "St. ", text)`: scan left to right, replacing
each boundary-anchored match and resuming after it (the last consumed
character is always a space).  The explicit fuel, initialised to the string
length, never runs out: every step consumes at least one character. -/
def subSaintFuel : Nat → Option Char → List Char → List Char
  | 0, _, l => l
  | fuel + 1, prev, l =>
    match l with
    | [] => []
    | c :: rest =>
      if boundaryOK prev then
        match matchSaintLen (c :: rest) with
        | some k => "St. ".data ++ subSaintFuel fuel (some ' ') (rest.drop (k - 1))
        | none => c :: subSaintFuel fuel (some c) rest
      else c :: subSaintFuel fuel (some c) rest

/-- The substitution scan started with adequate fuel. -/
def subSaintRun (prev : Option Char) (l : List Char) : List Char :=
  subSaintFuel l.length prev l

/-- `_normalize_saint_prefix`. -/
def normalize_saint_prefix (text : String) : String :=
  ⟨subSaintRun none text.data⟩

/-! ## `jamaica-addresses`: constants and parish resolution -/

/-- `PARISH_NAMES`: the 14 canonical parish names, in source order. -/
def PARISH_NAMES : List String :=
  ["Kingston", "St. Andrew", "St. Catherine", "Clarendon", "Manchester",
   "St. Elizabeth", "Westmoreland", "Hanover", "St. James", "Trelawny",
   "St. Ann", "St. Mary", "Portland", "St. Thomas"]

/-- `PARISH_ALIASES`, in insertion order. -/
def PARISH_ALIASES : List (String × String) :=
  [("kgn", "Kingston"), ("kng", "Kingston"), ("kingston", "Kingston"),
   ("st andrew", "St. Andrew"), ("saint andrew", "St. Andrew"),
   ("st. andrew", "St. Andrew"),
   ("st catherine", "St. Catherine"), ("saint catherine", "St. Catherine"),
   ("st. catherine", "St. Catherine"),
   ("clarendon", "Clarendon"),
   ("manchester", "Manchester"),
   ("st elizabeth", "St. Elizabeth"), ("saint elizabeth", "St. Elizabeth"),
   ("st. elizabeth", "St. Elizabeth"),
   ("westmoreland", "Westmoreland"),
   ("hanover", "Hanover"),
   ("st james", "St. James"), ("saint james", "St. James"),
   ("st. james", "St. James"), ("mobay", "St. James"), ("mo bay", "St. James"),
   ("trelawny", "Trelawny"),
   ("st ann", "St. Ann"), ("saint ann", "St. Ann"), ("st. ann", "St. Ann"),
   ("ochi", "St. Ann"),
   ("st mary", "St. Mary"), ("saint mary", "St. Mary"), ("st. mary", "St. Mary"),
   ("portland", "Portland"),
   ("st thomas", "St. Thomas"), ("saint thomas", "St. Thomas"),
   ("st. thomas", "St. Thomas"),
   ("sav", "Westmoreland"), ("savanna-la-mar", "Westmoreland")]

/-- `_PARISH_LOWER_MAP` (and the membership set `_PARISH_LOWER_SET`). -/
def parishLowerPairs : List (String × String) :=
  PARISH_NAMES.map (fun p => (pyLower p, p))

/-- `_resolve_parish`: canonical-name lookup after `Saint`/`St` normalization,
then the alias table. -/
def resolve_parish (text : String) : Option String :=
  let trimmed := stripChars text.data
  let normalized := subSaintRun none trimmed
  let lower : String := ⟨normalized.map lowerChar⟩
  match parishLowerPairs.lookup lower with
  | some canonical => some canonical
  | none => PARISH_ALIASES.lookup (⟨trimmed.map lowerChar⟩ : String)

/-- Python `str.split(",")`. -/
def splitComma : List Char → List (List Char)
  | [] => [[]]
  | c :: rest =>
    if c = ',' then [] :: splitComma rest
    else
      match splitComma rest with
      | [] => [[c]]
      | seg :: segs => (c :: seg) :: segs

/-- Python `needle in hay` (substring containment). -/
def listContains (hay needle : List Char) : Bool :=
  needle.isPrefixOf hay ||
    (match hay with
     | [] => false
     | _ :: t => listContains t needle)

/-- `re.search` for `\b<alias>\b` (case-insensitive), for an all-word-character
lowercase needle. -/
def wordBoundAux (needle : List Char) : Option Char → List Char → Bool
  | _, [] => false
  | prev, c :: rest =>
    if boundaryOK prev && ((c :: rest).take needle.length).map lowerChar == needle
        && (match ((c :: rest).drop needle.length).head? with
            | none => true
            | some d => !isPyWord d) then
      true
    else wordBoundAux needle (some c) rest

/-- `extract_parish`. -/
def extract_parish (address : String) : Option String :=
  let trimmed := stripChars address.data
  if trimmed = [] then none
  else if (kingstonSearch trimmed).isSome then some "Kingston"
  else
    let segments := (splitComma trimmed).map stripChars
    match segments.reverse.findSome? (fun seg => resolve_parish ⟨seg⟩) with
    | some p => some p
    | none =>
      let lowerAddr := trimmed.map lowerChar
      match PARISH_NAMES.find? (fun name => listContains lowerAddr (name.data.map lowerChar)) with
      | some name => some name
      | none =>
        match (PARISH_ALIASES.filter (fun a => a.1.length ≤ 5)).find?
            (fun a => wordBoundAux (a.1.data.map lowerChar) none trimmed) with
        | some a => some a.2
        | none => none

/-- `is_kingston_address`: Kingston parish or St. Andrew. -/
def is_kingston_address (address : String) : Bool :=
  match extract_parish address with
  | some p => p = "Kingston" ∨ p = "St. Andrew"
  | none => false

/-! ## `jamaica-addresses`: `parse_address` -/

/-- Backtracking for `\s+(.+)`: the group must start with a character other
than a newline; `\s+` is greedy and gives back spaces one at a time (never all
of them).  First argument: the reversed still-releasable spaces. -/
def dotPlusSearch : List Char → List Char → Option (List Char)
  | spRev, tail =>
    if tail.head? ≠ none ∧ tail.head? ≠ some '\n' then
      some (tail.takeWhile (fun c => c ≠ '\n'))
    else
      match spRev with
      | [] => none
      | s :: spRev2 => dotPlusSearch spRev2 (s :: tail)

/-- `\s+(.+)` at the head of `l`: returns the captured group. -/
def spacesThenRest (l : List Char) : Option (List Char) :=
  let sp := l.takeWhile isPySpace
  if sp = [] then none
  else dotPlusSearch sp.reverse (l.drop sp.length)

/-- `_UNIT_RE`: `^(Lot|Shop|Suite|Apt|Apartment|Unit|Floor|Flat)\s+[\w-]+`
(case-insensitive, used as a Boolean test; no two keywords can match the same
segment, so alternation order is immaterial). -/
def unitMatch (l : List Char) : Bool :=
  ["lot", "shop", "suite", "apt", "apartment", "unit", "floor", "flat"].any
    (fun kw =>
      ((l.take kw.data.length).map lowerChar == kw.data) &&
        (let rest := l.drop kw.data.length
         let sp := rest.takeWhile isPySpace
         decide (sp ≠ []) &&
           (match (rest.drop sp.length).head? with
            | some c => isPyWord c || c = '-'
            | none => false)))

/-- `_DISTRICT_RE`: `^District\s+of\s+(.+)` (case-insensitive), returning
group 1. -/
def districtMatch (l : List Char) : Option (List Char) :=
  if (l.take 8).map lowerChar = "district".data then
    (let r1 := l.drop 8
     let sp1 := r1.takeWhile isPySpace
     if sp1 = [] then none
     else
       let r2 := r1.drop sp1.length
       if (r2.take 2).map lowerChar = "of".data then spacesThenRest (r2.drop 2)
       else none)
  else none

/-- `_STREET_NUMBER_RE`: `^(\d+[A-Za-z]?)\s+(.+)`, returning groups 1 and 2
(the digit run is maximal; giving digits back can never help, and when the
optional letter is present but the rest fails, retrying without it puts `\s+`
on the letter, which also fails). -/
def streetNumberMatch (l : List Char) : Option (List Char × List Char) :=
  let ds := l.takeWhile isPyDigit
  if ds = [] then none
  else
    let r1 := l.drop ds.length
    match r1.head? with
    | some c =>
      if isAsciiLetter c then
        (spacesThenRest (r1.drop 1)).map (fun g2 => (ds ++ [c], g2))
      else (spacesThenRest r1).map (fun g2 => (ds, g2))
    | none => none

/-- Pass 1 of `parse_address`: scan the indexed segments from the last to the
first for a Kingston sector match or a resolvable parish; returns
`(parish_idx, parish, kingston_sector)`. -/
def findParishSegAux : List (Nat × List Char) → Option (Nat × String × Option Nat)
  | [] => none
  | (i, seg) :: rest =>
    match kingstonSearch seg with
    | some sector =>
      some (i, "Kingston", if 1 ≤ sector ∧ sector ≤ 20 then some sector else none)
    | none =>
      match resolve_parish ⟨seg⟩ with
      | some p => some (i, p, none)
      | none => findParishSegAux rest

/-- Pass 2 of `parse_address`: interpret the segments before the parish
segment as district / unit / street number and name / community. -/
def parseAddressPass2 (raw : String) (parish : Option String) (sector : Option Nat)
    (remaining : List (List Char)) : ParsedAddress :=
  if remaining = [] then
    { raw := raw, parish := parish, kingston_sector := sector }
  else
    let dm := match remaining with
      | r0 :: _ => districtMatch r0
      | [] => none
    let district : Option String := dm.map (fun g => ⟨stripChars g⟩)
    let rem1 := match dm, remaining with
      | some _, _ :: rest => rest
      | _, _ => remaining
    let hasUnit := match rem1 with
      | r0 :: _ => unitMatch r0
      | [] => false
    let unit : Option String :=
      if hasUnit then (match rem1 with | r0 :: _ => some ⟨r0⟩ | [] => none) else none
    let rem2 := if hasUnit then rem1.tail else rem1
    let snm := match rem2 with
      | r0 :: _ => streetNumberMatch r0
      | [] => none
    let street_number : Option String := snm.map (fun g => ⟨g.1⟩)
    let sname0 : Option String := snm.map (fun g => ⟨stripChars g.2⟩)
    let rem3 := match snm, rem2 with
      | some _, _ :: rest => rest
      | _, _ => rem2
    let snc : Option String × Option String :=
      match rem3 with
      | [] => (sname0, none)
      | [c0] => (sname0, some (⟨c0⟩ : String))
      | s0 :: c0 :: more =>
        ((if strTruthy sname0 then sname0
          else some (joinSep ", " (((s0 :: c0 :: more).dropLast).map (fun x => ⟨x⟩)))),
         some (⟨((s0 :: c0 :: more).getLast?).getD []⟩ : String))
    { raw := raw, street_number := street_number, street_name := snc.1,
      unit := unit, community := snc.2, district := district,
      parish := parish, kingston_sector := sector }

/-- `parse_address`. -/
def parse_address (raw : String) : ParsedAddress :=
  let trimmed := stripChars raw.data
  if trimmed = [] then { raw := raw }
  else
    let segments := (splitComma trimmed).map stripChars
    match findParishSegAux segments.enum.reverse with
    | some t => parseAddressPass2 raw (some t.2.1) t.2.2 (segments.take t.1)
    | none => parseAddressPass2 raw none none segments

/-! ## Claim C3: the Kingston sector pattern -/

/-- `takeWhile` through an append that stops at the head of `m` (or at the
end). -/
theorem takeWhile_append_all (p : Char → Bool) :
    ∀ (l m : List Char), (∀ c ∈ l, p c = true) →
      (∀ c, m.head? = some c → p c = false) → (l ++ m).takeWhile p = l := by
  intro l
  induction l with
  | nil =>
    intro m _ hm
    cases m with
    | nil => rfl
    | cons d m2 =>
      rw [List.nil_append, List.takeWhile_cons, hm d rfl]
      simp
  | cons c rest ih =>
    intro m hall hm
    rw [List.cons_append, List.takeWhile_cons, hall c (List.mem_cons_self c rest)]
    simp only [ite_true]
    rw [ih m (fun x hx => hall x (List.mem_cons_of_mem c hx)) hm]

/-- `dropWhile` through an append that stops at the head of `m` (or at the
end). -/
theorem dropWhile_append_all (p : Char → Bool) :
    ∀ (l m : List Char), (∀ c ∈ l, p c = true) →
      (∀ c, m.head? = some c → p c = false) → (l ++ m).dropWhile p = m := by
  intro l
  induction l with
  | nil =>
    intro m _ hm
    cases m with
    | nil => rfl
    | cons d m2 =>
      rw [List.nil_append, List.dropWhile_cons, hm d rfl]
      simp
  | cons c rest ih =>
    intro m hall hm
    rw [List.cons_append, List.dropWhile_cons, hall c (List.mem_cons_self c rest)]
    simp only [ite_true]
    exact ih m (fun x hx => hall x (List.mem_cons_of_mem c hx)) hm

/-- Dropping the `takeWhile` head leaves the `dropWhile` tail. -/
theorem drop_length_takeWhile (p : Char → Bool) :
    ∀ l : List Char, l.drop (l.takeWhile p).length = l.dropWhile p := by
  intro l
  induction l with
  | nil => rfl
  | cons c rest ih =>
    rw [List.takeWhile_cons, List.dropWhile_cons]
    by_cases hc : p c = true
    · rw [hc]
      simp only [ite_true, List.length_cons, List.drop_succ_cons]
      exact ih
    · rw [Bool.not_eq_true] at hc
      rw [hc]
      simp

/-- Members of `takeWhile` satisfy the predicate. -/
theorem mem_takeWhile_pred (p : Char → Bool) :
    ∀ (l : List Char) (c : Char), c ∈ l.takeWhile p → p c = true := by
  intro l
  induction l with
  | nil =>
    intro c hc
    exact absurd hc (List.not_mem_nil c)
  | cons d rest ih =>
    intro c hc
    rw [List.takeWhile_cons] at hc
    by_cases hd : p d = true
    · rw [hd] at hc
      simp only [ite_true] at hc
      rcases List.mem_cons.mp hc with h | h
      · rw [h]; exact hd
      · exact ih c h
    · rw [Bool.not_eq_true] at hd
      rw [hd] at hc
      simp at hc

/-- The character immediately before the scan position: the last of `pre`,
else the incoming previous character. -/
def lastOr : List Char → Option Char → Option Char
  | [], prev => prev
  | [c], _ => some c
  | _ :: c :: rest, prev => lastOr (c :: rest) prev

/-- `lastOr` ignores the fallback on nonempty lists. -/
theorem lastOr_ne_nil (pre : List Char) (hne : pre ≠ []) (p1 p2 : Option Char) :
    lastOr pre p1 = lastOr pre p2 := by
  induction pre with
  | nil => exact absurd rfl hne
  | cons x xs ih =>
    cases xs with
    | nil => rfl
    | cons y ys =>
      show lastOr (y :: ys) p1 = lastOr (y :: ys) p2
      exact ih (List.cons_ne_nil y ys)

theorem lastOr_cons (c : Char) (pre : List Char) (prev : Option Char) :
    lastOr (c :: pre) prev = lastOr pre (some c) := by
  cases pre with
  | nil => rfl
  | cons x xs =>
    show lastOr (x :: xs) prev = lastOr (x :: xs) (some c)
    exact lastOr_ne_nil (x :: xs) (List.cons_ne_nil x xs) prev (some c)

/-- A decomposition of `l` witnessing a match of `\bKingston\s*(\d{1,2})\b`
(case-insensitive) capturing the value `n`, with the word boundary taken
against `prev` when the match is at the start. -/
def KingstonMatchAt (prev : Option Char) (l : List Char) (n : Nat) : Prop :=
  ∃ pre kng sp ds post : List Char,
    l = pre ++ kng ++ sp ++ ds ++ post ∧
    boundaryOK (lastOr pre prev) = true ∧
    kng.map lowerChar = "kingston".data ∧
    (∀ c ∈ sp, isPySpace c = true) ∧
    ds ≠ [] ∧ ds.length ≤ 2 ∧ (∀ c ∈ ds, isPyDigit c = true) ∧
    (∀ c, post.head? = some c → isPyWord c = false) ∧
    charsToNat ds = n

/-- Unfolding `kingstonTail` on a success. -/
theorem kingstonTail_sound {l8 : List Char} {n : Nat} (h : kingstonTail l8 = some n) :
    ∃ sp ds post : List Char,
      l8 = sp ++ ds ++ post ∧ (∀ c ∈ sp, isPySpace c = true) ∧
      ds ≠ [] ∧ ds.length ≤ 2 ∧ (∀ c ∈ ds, isPyDigit c = true) ∧
      (∀ c, post.head? = some c → isPyWord c = false) ∧ charsToNat ds = n := by
  unfold kingstonTail at h
  dsimp only at h
  by_cases hlen : ((l8.dropWhile isPySpace).takeWhile isPyDigit).length = 1 ∨
      ((l8.dropWhile isPySpace).takeWhile isPyDigit).length = 2
  · rw [if_pos hlen] at h
    by_cases hafter : (match ((l8.dropWhile isPySpace).drop
        ((l8.dropWhile isPySpace).takeWhile isPyDigit).length).head? with
        | none => true
        | some c => !isPyWord c) = true
    · rw [if_pos hafter] at h
      refine ⟨l8.takeWhile isPySpace, (l8.dropWhile isPySpace).takeWhile isPyDigit,
        (l8.dropWhile isPySpace).dropWhile isPyDigit, ?_, ?_, ?_, ?_, ?_, ?_, ?_⟩
      · calc l8 = l8.takeWhile isPySpace ++ l8.dropWhile isPySpace :=
              (List.takeWhile_append_dropWhile isPySpace l8).symm
          _ = l8.takeWhile isPySpace ++ ((l8.dropWhile isPySpace).takeWhile isPyDigit ++
              (l8.dropWhile isPySpace).dropWhile isPyDigit) := by
              rw [List.takeWhile_append_dropWhile isPyDigit (l8.dropWhile isPySpace)]
          _ = l8.takeWhile isPySpace ++ (l8.dropWhile isPySpace).takeWhile isPyDigit ++
              (l8.dropWhile isPySpace).dropWhile isPyDigit := by
              rw [List.append_assoc]
      · exact fun c hc => mem_takeWhile_pred _ _ c hc
      · intro hc
        rw [hc] at hlen
        simp at hlen
      · omega
      · exact fun c hc => mem_takeWhile_pred _ _ c hc
      · intro c hc
        rw [drop_length_takeWhile isPyDigit (l8.dropWhile isPySpace), hc] at hafter
        simpa using hafter
      · exact Option.some.inj h
    · rw [if_neg hafter] at h
      exact Option.noConfusion h
  · rw [if_neg hlen] at h
    exact Option.noConfusion h

/-- Soundness of the Kingston search: a returned value comes from a genuine
boundary-anchored match. -/
theorem kingstonSearchAux_sound :
    ∀ (l : List Char) (prev : Option Char) (n : Nat),
      kingstonSearchAux prev l = some n → KingstonMatchAt prev l n := by
  intro l
  induction l with
  | nil =>
    intro prev n h
    exact Option.noConfusion h
  | cons c rest ih =>
    intro prev n h
    unfold kingstonSearchAux at h
    by_cases hcond : (boundaryOK prev &&
        ((c :: rest).take 8).map lowerChar == "kingston".data) = true
    · rw [if_pos hcond] at h
      obtain ⟨hb, hk⟩ := (Bool.and_eq_true _ _) ▸ hcond
      rcases ht : kingstonTail ((c :: rest).drop 8) with _ | m
      · rw [ht] at h
        obtain ⟨pre, kng, sp, ds, post, heq, hbnd, hkng, hsp, hds, hds2, hds3, hpost, hval⟩ :=
          ih (some c) n h
        exact ⟨c :: pre, kng, sp, ds, post, by simp [heq],
          by rw [lastOr_cons]; exact hbnd, hkng, hsp, hds, hds2, hds3, hpost, hval⟩
      · rw [ht] at h
        have hmn : m = n := Option.some.inj h
        subst hmn
        obtain ⟨sp, ds, post, heq8, hsp, hds, hds2, hds3, hpost, hval⟩ := kingstonTail_sound ht
        refine ⟨[], (c :: rest).take 8, sp, ds, post, ?_, hb, ?_, hsp, hds, hds2, hds3, hpost, hval⟩
        · calc c :: rest = (c :: rest).take 8 ++ (c :: rest).drop 8 :=
              (List.take_append_drop 8 (c :: rest)).symm
            _ = (c :: rest).take 8 ++ (sp ++ ds ++ post) := by rw [heq8]
            _ = [] ++ (c :: rest).take 8 ++ sp ++ ds ++ post := by simp [List.append_assoc]
        · exact beq_iff_eq.mp hk
    · rw [if_neg hcond] at h
      obtain ⟨pre, kng, sp, ds, post, heq, hbnd, hkng, hsp, hds, hds2, hds3, hpost, hval⟩ :=
        ih (some c) n h
      exact ⟨c :: pre, kng, sp, ds, post, by simp [heq],
        by rw [lastOr_cons]; exact hbnd, hkng, hsp, hds, hds2, hds3, hpost, hval⟩

/-- Digits are word characters. -/
theorem pyDigit_isWord {c : Char} (h : isPyDigit c = true) : isPyWord c = true := by
  unfold isPyWord
  rw [h]
  simp

/-- The head step of the search succeeds when the pattern matches here. -/
theorem kingstonSearchAux_head (prev : Option Char) (l : List Char) (n : Nat)
    (hb : boundaryOK prev = true) (hk : (l.take 8).map lowerChar = "kingston".data)
    (ht : kingstonTail (l.drop 8) = some n) : kingstonSearchAux prev l = some n := by
  cases l with
  | nil =>
    rw [List.take_nil, List.map_nil] at hk
    exact absurd hk.symm (by decide)
  | cons c rest =>
    unfold kingstonSearchAux
    rw [if_pos ((Bool.and_eq_true _ _).symm ▸ ⟨hb, beq_iff_eq.mpr hk⟩), ht]

/-- The tail matcher accepts a decomposed space/digit/boundary suffix. -/
theorem kingstonTail_complete (sp ds post : List Char)
    (hsp : ∀ c ∈ sp, isPySpace c = true) (hds : ds ≠ []) (hds2 : ds.length ≤ 2)
    (hds3 : ∀ c ∈ ds, isPyDigit c = true)
    (hpost : ∀ c, post.head? = some c → isPyWord c = false) :
    kingstonTail (sp ++ ds ++ post) = some (charsToNat ds) := by
  obtain ⟨d, ds2, rfl⟩ : ∃ d ds2, ds = d :: ds2 := by
    cases ds with
    | nil => exact absurd rfl hds
    | cons d ds2 => exact ⟨d, ds2, rfl⟩
  have hshape : sp ++ (d :: ds2) ++ post = sp ++ ((d :: ds2) ++ post) :=
    List.append_assoc sp (d :: ds2) post
  have hdw : (sp ++ ((d :: ds2) ++ post)).dropWhile isPySpace = (d :: ds2) ++ post := by
    apply dropWhile_append_all _ _ _ hsp
    intro c hc
    have : c = d := by
      rw [List.cons_append] at hc
      exact Option.some.inj hc.symm ▸ rfl
    rw [this]
    exact pyDigit_not_space (hds3 d (List.mem_cons_self d ds2))
  have htw : ((d :: ds2) ++ post).takeWhile isPyDigit = d :: ds2 := by
    apply takeWhile_append_all _ _ _ hds3
    intro c hc
    rw [← Bool.not_eq_true]
    intro hdig
    exact absurd (pyDigit_isWord hdig) (by rw [hpost c hc]; exact Bool.false_ne_true)
  unfold kingstonTail
  rw [hshape, hdw]
  dsimp only
  rw [htw]
  have hdr : ((d :: ds2) ++ post).drop (d :: ds2).length = post := List.drop_left _ _
  rw [hdr]
  have hlen : (d :: ds2).length = 1 ∨ (d :: ds2).length = 2 := by
    rw [List.length_cons] at hds2 ⊢
    omega
  rw [if_pos hlen]
  have hcheck : (match post.head? with
      | none => true
      | some c => !isPyWord c) = true := by
    rcases hh : post.head? with _ | c
    · rfl
    · show (!isPyWord c) = true
      rw [hpost c hh]
      rfl
  rw [if_pos hcheck]

/-- Completeness of the Kingston search: a boundary-anchored match anywhere
makes the search succeed. -/
theorem kingstonSearch_complete :
    ∀ (pre : List Char) (prev : Option Char) (kng sp ds post : List Char),
      boundaryOK (lastOr pre prev) = true →
      kng.map lowerChar = "kingston".data →
      (∀ c ∈ sp, isPySpace c = true) → ds ≠ [] → ds.length ≤ 2 →
      (∀ c ∈ ds, isPyDigit c = true) →
      (∀ c, post.head? = some c → isPyWord c = false) →
      (kingstonSearchAux prev (pre ++ kng ++ sp ++ ds ++ post)).isSome = true := by
  intro pre
  induction pre with
  | nil =>
    intro prev kng sp ds post hb hk hsp hds hds2 hds3 hpost
    have hklen : kng.length = 8 := by
      have hlen := congrArg List.length hk
      rw [List.length_map] at hlen
      simpa using hlen
    have hshape : [] ++ kng ++ sp ++ ds ++ post = kng ++ (sp ++ ds ++ post) := by
      simp [List.append_assoc]
    rw [hshape]
    have htk : (kng ++ (sp ++ ds ++ post)).take 8 = kng := by
      rw [← hklen]
      exact List.take_left kng _
    have hdp : (kng ++ (sp ++ ds ++ post)).drop 8 = sp ++ ds ++ post := by
      rw [← hklen]
      exact List.drop_left kng _
    rw [kingstonSearchAux_head prev _ (charsToNat ds) hb
      (by rw [htk]; exact hk)
      (by rw [hdp]; exact kingstonTail_complete sp ds post hsp hds hds2 hds3 hpost)]
    rfl
  | cons c pre ih =>
    intro prev kng sp ds post hb hk hsp hds hds2 hds3 hpost
    have hb2 : boundaryOK (lastOr pre (some c)) = true := by
      rw [← lastOr_cons c pre prev]
      exact hb
    have hshape : (c :: pre) ++ kng ++ sp ++ ds ++ post =
        c :: (pre ++ kng ++ sp ++ ds ++ post) := by
      simp
    rw [hshape]
    unfold kingstonSearchAux
    by_cases hcond : (boundaryOK prev &&
        ((c :: (pre ++ kng ++ sp ++ ds ++ post)).take 8).map lowerChar ==
          "kingston".data) = true
    · rw [if_pos hcond]
      rcases ht : kingstonTail ((c :: (pre ++ kng ++ sp ++ ds ++ post)).drop 8) with _ | m
      · exact ih (some c) kng sp ds post hb2 hk hsp hds hds2 hds3 hpost
      · rfl
    · rw [if_neg hcond]
      exact ih (some c) kng sp ds post hb2 hk hsp hds hds2 hds3 hpost

/-- Pass 1 records a sector only within 1-20, and then the parish is
Kingston. -/
theorem findParishSegAux_sector :
    ∀ (L : List (Nat × List Char)) (i : Nat) (p : String) (s : Option Nat),
      findParishSegAux L = some (i, p, s) →
      ∀ n, s = some n → 1 ≤ n ∧ n ≤ 20 ∧ p = "Kingston" := by
  intro L
  induction L with
  | nil =>
    intro i p s h
    exact absurd h (by simp [findParishSegAux])
  | cons hd tl ih =>
    intro i p s h n hs
    obtain ⟨j, seg⟩ := hd
    unfold findParishSegAux at h
    rcases hks : kingstonSearch seg with _ | sector
    · rw [hks] at h
      rcases hrp : resolve_parish ⟨seg⟩ with _ | q
      · rw [hrp] at h
        exact ih i p s h n hs
      · rw [hrp] at h
        have h2 := Option.some.inj h
        simp only [Prod.mk.injEq] at h2
        rw [← h2.2.2] at hs
        exact Option.noConfusion hs
    · rw [hks] at h
      have h2 := Option.some.inj h
      simp only [Prod.mk.injEq] at h2
      have hp : p = "Kingston" := h2.2.1.symm
      have hsv : (if 1 ≤ sector ∧ sector ≤ 20 then some sector else none) = s := h2.2.2
      by_cases hrange : 1 ≤ sector ∧ sector ≤ 20
      · rw [if_pos hrange] at hsv
        rw [← hsv] at hs
        have : sector = n := Option.some.inj hs
        subst this
        exact ⟨hrange.1, hrange.2, hp⟩
      · rw [if_neg hrange] at hsv
        rw [← hsv] at hs
        exact Option.noConfusion hs

/-- Pass 2 passes the parish and sector fields through unchanged. -/
theorem parseAddressPass2_fields (raw : String) (parish : Option String)
    (sector : Option Nat) (remaining : List (List Char)) :
    (parseAddressPass2 raw parish sector remaining).kingston_sector = sector ∧
    (parseAddressPass2 raw parish sector remaining).parish = parish := by
  unfold parseAddressPass2
  by_cases hrem : remaining = []
  · rw [if_pos hrem]
    exact ⟨rfl, rfl⟩
  · rw [if_neg hrem]
    exact ⟨rfl, rfl⟩

/-- `parse_address` records a Kingston sector only within 1-20, and then it
also sets the parish to Kingston. -/
theorem parse_address_sector_range (s : String) (n : Nat)
    (h : (parse_address s).kingston_sector = some n) :
    1 ≤ n ∧ n ≤ 20 ∧ (parse_address s).parish = some "Kingston" := by
  unfold parse_address at h ⊢
  by_cases htr : stripChars s.data = []
  · rw [if_pos htr] at h
    simp at h
  · rw [if_neg htr] at h ⊢
    dsimp only at h ⊢
    rcases hp1 : findParishSegAux
        (((splitComma (stripChars s.data)).map stripChars).enum.reverse) with _ | t
    · rw [hp1] at h
      have h2 : (parseAddressPass2 s none none
          ((splitComma (stripChars s.data)).map stripChars)).kingston_sector = some n := h
      rw [(parseAddressPass2_fields s none none _).1] at h2
      exact Option.noConfusion h2
    · rw [hp1] at h
      have h2 : (parseAddressPass2 s (some t.2.1) t.2.2
          (((splitComma (stripChars s.data)).map stripChars).take t.1)).kingston_sector =
          some n := h
      rw [(parseAddressPass2_fields s (some t.2.1) t.2.2 _).1] at h2
      show 1 ≤ n ∧ n ≤ 20 ∧ (parseAddressPass2 s (some t.2.1) t.2.2
          (((splitComma (stripChars s.data)).map stripChars).take t.1)).parish =
          some "Kingston"
      rw [(parseAddressPass2_fields s (some t.2.1) t.2.2 _).2]
      have hsec := findParishSegAux_sector _ t.1 t.2.1 t.2.2 hp1 n h2
      exact ⟨hsec.1, hsec.2.1, by rw [hsec.2.2]⟩

/-- C3: `get_kingston_sector s` returns `n` iff the embedded
`\bKingston\s*(\d{1,2})\b` search (case-insensitive, first occurrence) finds
`n` with `1 ≤ n ≤ 20`, and returns `None` otherwise; a found value always
comes from a genuine boundary-anchored occurrence, and any such occurrence
makes the search succeed; `parse_address` records a `kingston_sector` only
within 1-20, while still setting the parish to Kingston. -/
theorem kingston_sector_extraction_correct :
    (∀ (s : String) (n : Nat), get_kingston_sector s = some n ↔
      kingstonSearch s.data = some n ∧ 1 ≤ n ∧ n ≤ 20) ∧
    (∀ (l : List Char) (n : Nat), kingstonSearch l = some n → KingstonMatchAt none l n) ∧
    (∀ (l : List Char) (n : Nat), KingstonMatchAt none l n →
      (kingstonSearch l).isSome = true) ∧
    (∀ (s : String) (n : Nat), (parse_address s).kingston_sector = some n →
      1 ≤ n ∧ n ≤ 20 ∧ (parse_address s).parish = some "Kingston") := by
  refine ⟨?_, ?_, ?_, parse_address_sector_range⟩
  · intro s n
    unfold get_kingston_sector
    rcases hks : kingstonSearch s.data with _ | m
    · simp
    · show (if m < 1 ∨ 20 < m then none else some m) = some n ↔
          some m = some n ∧ 1 ≤ n ∧ n ≤ 20
      by_cases hr : m < 1 ∨ 20 < m
      · rw [if_pos hr]
        constructor
        · intro hc
          exact Option.noConfusion hc
        · rintro ⟨hmn, h1, h2⟩
          have := Option.some.inj hmn
          omega
      · rw [if_neg hr]
        constructor
        · intro hmn
          have := Option.some.inj hmn
          refine ⟨hmn, by omega, by omega⟩
        · exact fun hc => hc.1
  · intro l n h
    exact kingstonSearchAux_sound l none n h
  · intro l n h
    obtain ⟨pre, kng, sp, ds, post, heq, hbnd, hkng, hsp, hds, hds2, hds3, hpost, hval⟩ := h
    rw [heq]
    exact kingstonSearch_complete pre none kng sp ds post hbnd hkng hsp hds hds2 hds3 hpost

/-- Witness for C3 at the concrete address `"Kingston 10"`. -/
theorem kingston_sector_extraction_correct_witness :
    (get_kingston_sector "Kingston 10" = some 10 ↔
      kingstonSearch ("Kingston 10".data) = some 10 ∧ 1 ≤ 10 ∧ 10 ≤ 20) ∧
    KingstonMatchAt none ("Kingston 10".data) 10 ∧
    (kingstonSearch ("Kingston 10".data)).isSome = true ∧
    (1 ≤ 10 ∧ 10 ≤ 20 ∧ (parse_address "Kingston 10").parish = some "Kingston") :=
  ⟨kingston_sector_extraction_correct.1 "Kingston 10" 10,
   kingston_sector_extraction_correct.2.1 ("Kingston 10".data) 10 (by decide),
   kingston_sector_extraction_correct.2.2.1 ("Kingston 10".data) 10
     (kingston_sector_extraction_correct.2.1 ("Kingston 10".data) 10 (by decide)),
   kingston_sector_extraction_correct.2.2.2 "Kingston 10" 10 (by decide)⟩

/-! ## Claim C1: `extract_parish` canonicalization -/

/-- A successful association-list lookup returns one of the stored values. -/
theorem lookup_mem_snd :
    ∀ (l : List (String × String)) (k v : String), l.lookup k = some v →
      v ∈ l.map Prod.snd := by
  intro l
  induction l with
  | nil =>
    intro k v h
    exact Option.noConfusion h
  | cons a rest ih =>
    intro k v h
    obtain ⟨ka, va⟩ := a
    rw [List.lookup_cons] at h
    by_cases hk : (k == ka) = true
    · rw [hk] at h
      simp only [List.map_cons]
      exact (Option.some.inj h) ▸ List.mem_cons_self va _
    · rw [Bool.not_eq_true] at hk
      rw [hk] at h
      exact List.mem_cons_of_mem _ (ih k v h)

/-- `_resolve_parish` only returns canonical parish names. -/
theorem resolve_parish_mem {t : String} {p : String}
    (h : resolve_parish t = some p) : p ∈ PARISH_NAMES := by
  unfold resolve_parish at h
  dsimp only at h
  rcases h1 : parishLowerPairs.lookup
      ⟨(subSaintRun none (stripChars t.data)).map lowerChar⟩ with _ | c
  · rw [h1] at h
    have h2 := lookup_mem_snd _ _ _ h
    have hsub : ∀ v ∈ PARISH_ALIASES.map Prod.snd, v ∈ PARISH_NAMES := by decide
    exact hsub p h2
  · rw [h1] at h
    have hc : c = p := Option.some.inj h
    subst hc
    have h2 := lookup_mem_snd _ _ _ h1
    have hsub : ∀ v ∈ parishLowerPairs.map Prod.snd, v ∈ PARISH_NAMES := by decide
    exact hsub c h2

/-- C1: `extract_parish` returns `None` or one of the 14 canonical parish
names; `Saint X` and `St X` variants are canonicalized to `St. X`; the aliases
`mobay`/`mo bay` resolve to St. James, `ochi` to St. Ann, and
`sav`/`savanna-la-mar` to Westmoreland. -/
theorem extract_parish_canonical :
    (∀ s : String, extract_parish s = none ∨
      ∃ p, extract_parish s = some p ∧ p ∈ PARISH_NAMES) ∧
    (extract_parish "Saint Andrew" = some "St. Andrew" ∧
     extract_parish "St Andrew" = some "St. Andrew" ∧
     extract_parish "Saint Catherine" = some "St. Catherine" ∧
     extract_parish "St Catherine" = some "St. Catherine" ∧
     extract_parish "Saint Elizabeth" = some "St. Elizabeth" ∧
     extract_parish "St Elizabeth" = some "St. Elizabeth" ∧
     extract_parish "Saint James" = some "St. James" ∧
     extract_parish "St James" = some "St. James" ∧
     extract_parish "Saint Ann" = some "St. Ann" ∧
     extract_parish "St Ann" = some "St. Ann" ∧
     extract_parish "Saint Mary" = some "St. Mary" ∧
     extract_parish "St Mary" = some "St. Mary" ∧
     extract_parish "Saint Thomas" = some "St. Thomas" ∧
     extract_parish "St Thomas" = some "St. Thomas") ∧
    (extract_parish "mobay" = some "St. James" ∧
     extract_parish "mo bay" = some "St. James" ∧
     extract_parish "ochi" = some "St. Ann" ∧
     extract_parish "sav" = some "Westmoreland" ∧
     extract_parish "savanna-la-mar" = some "Westmoreland") := by
  refine ⟨?_, by decide, by decide⟩
  intro s
  rcases hx : extract_parish s with _ | p
  · exact Or.inl rfl
  · refine Or.inr ⟨p, rfl, ?_⟩
    unfold extract_parish at hx
    dsimp only at hx
    by_cases h0 : stripChars s.data = []
    · rw [if_pos h0] at hx
      exact Option.noConfusion hx
    · rw [if_neg h0] at hx
      by_cases h1 : (kingstonSearch (stripChars s.data)).isSome = true
      · rw [if_pos h1] at hx
        have hp : "Kingston" = p := Option.some.inj hx
        rw [← hp]
        decide
      · rw [if_neg h1] at hx
        rcases h2 : ((splitComma (stripChars s.data)).map stripChars).reverse.findSome?
            (fun seg => resolve_parish ⟨seg⟩) with _ | q
        · rw [h2] at hx
          have hx2 : (match PARISH_NAMES.find?
              (fun name => listContains ((stripChars s.data).map lowerChar)
                (name.data.map lowerChar)) with
            | some name => some name
            | none =>
              match (PARISH_ALIASES.filter (fun a => a.1.length ≤ 5)).find?
                  (fun a => wordBoundAux (a.1.data.map lowerChar) none
                    (stripChars s.data)) with
              | some a => some a.2
              | none => none) = some p := hx
          rcases h3 : PARISH_NAMES.find?
              (fun name => listContains ((stripChars s.data).map lowerChar)
                (name.data.map lowerChar)) with _ | q2
          · rw [h3] at hx2
            have hx3 : (match (PARISH_ALIASES.filter (fun a => a.1.length ≤ 5)).find?
                (fun a => wordBoundAux (a.1.data.map lowerChar) none
                  (stripChars s.data)) with
              | some a => some a.2
              | none => none) = some p := hx2
            rcases h4 : (PARISH_ALIASES.filter (fun a => a.1.length ≤ 5)).find?
                (fun a => wordBoundAux (a.1.data.map lowerChar) none
                  (stripChars s.data)) with _ | al
            · rw [h4] at hx3
              exact Option.noConfusion hx3
            · rw [h4] at hx3
              have hal : al.2 = p := Option.some.inj hx3
              rw [← hal]
              have h5 := List.mem_of_find?_eq_some h4
              have h6 := List.mem_of_mem_filter h5
              have hsub : ∀ v ∈ PARISH_ALIASES.map Prod.snd, v ∈ PARISH_NAMES := by decide
              exact hsub al.2 (List.mem_map_of_mem Prod.snd h6)
          · rw [h3] at hx2
            have hq : q2 = p := Option.some.inj hx2
            rw [← hq]
            exact List.mem_of_find?_eq_some h3
        · rw [h2] at hx
          have hq : q = p := Option.some.inj hx
          obtain ⟨l1, seg, l2, hsplit, hres, hnone⟩ := List.findSome?_eq_some_iff.mp h2
          rw [← hq]
          exact resolve_parish_mem hres

/-! ## `jamaica-holidays`: dates and the holiday calendar
(`jamaica_holidays/__init__.py`)

`datetime.date` is modelled as a year/month/day triple with proleptic
Gregorian arithmetic; `date.weekday()` (Monday = 0) is recovered from the
rata die day number. -/

/-- A calendar date. -/
structure YMD where
  y : Nat
  m : Nat
  d : Nat
deriving DecidableEq, Repr

/-- Gregorian leap year. -/
def isLeap (y : Nat) : Bool :=
  (y % 4 = 0 && y % 100 ≠ 0) || y % 400 = 0

/-- Days in a month. -/
def daysInMonth (y m : Nat) : Nat :=
  if m = 2 then (if isLeap y then 29 else 28)
  else if m = 4 ∨ m = 6 ∨ m = 9 ∨ m = 11 then 30
  else 31

/-- A date whose month and day are in range. -/
def ValidYMD (x : YMD) : Prop :=
  1 ≤ x.m ∧ x.m ≤ 12 ∧ 1 ≤ x.d ∧ x.d ≤ daysInMonth x.y x.m

instance (x : YMD) : Decidable (ValidYMD x) := by
  unfold ValidYMD
  exact inferInstance

/-- `date + timedelta(days=1)`. -/
def nextDay (x : YMD) : YMD :=
  if x.d < daysInMonth x.y x.m then ⟨x.y, x.m, x.d + 1⟩
  else if x.m < 12 then ⟨x.y, x.m + 1, 1⟩
  else ⟨x.y + 1, 1, 1⟩

/-- `date - timedelta(days=1)`. -/
def prevDay (x : YMD) : YMD :=
  if 1 < x.d then ⟨x.y, x.m, x.d - 1⟩
  else if 1 < x.m then ⟨x.y, x.m - 1, daysInMonth x.y (x.m - 1)⟩
  else ⟨x.y - 1, 12, 31⟩

/-- `date + timedelta(days=k)`. -/
def addDays (x : YMD) : Nat → YMD
  | 0 => x
  | k + 1 => nextDay (addDays x k)

/-- `date - timedelta(days=k)`. -/
def subDays (x : YMD) : Nat → YMD
  | 0 => x
  | k + 1 => prevDay (subDays x k)

/-- Days before the given month in the year. -/
def daysBeforeMonth (y m : Nat) : Nat :=
  let f := if isLeap y then 1 else 0
  match m with
  | 1 => 0
  | 2 => 31
  | 3 => 59 + f
  | 4 => 90 + f
  | 5 => 120 + f
  | 6 => 151 + f
  | 7 => 181 + f
  | 8 => 212 + f
  | 9 => 243 + f
  | 10 => 273 + f
  | 11 => 304 + f
  | 12 => 334 + f
  | _ => 365 + f

/-- Rata die: day number with `0001-01-01` as day 1. -/
def rataDie (x : YMD) : Nat :=
  365 * (x.y - 1) + (x.y - 1) / 4 - (x.y - 1) / 100 + (x.y - 1) / 400 +
    daysBeforeMonth x.y x.m + x.d

/-- `date.weekday()`: Monday = 0 … Sunday = 6. -/
def weekday (x : YMD) : Nat := (rataDie x + 6) % 7

/-- `date.isoformat()` of a `YMD`. -/
def fmtDate (x : YMD) : String :=
  ⟨pad4 x.y ++ '-' :: pad2 x.m ++ '-' :: pad2 x.d⟩

/-- Split a character list at dashes (`str.split("-")`-style). -/
def splitDash : List Char → List (List Char)
  | [] => [[]]
  | c :: rest =>
    if c = '-' then [] :: splitDash rest
    else
      match splitDash rest with
      | [] => [[c]]
      | seg :: segs => (c :: seg) :: segs

/-- `date.fromisoformat` on well-formed `YYYY-MM-DD` strings. -/
def parseDate (s : String) : YMD :=
  match splitDash s.data with
  | [ys, ms, ds] => ⟨charsToNat ys, charsToNat ms, charsToNat ds⟩
  | _ => ⟨0, 0, 0⟩

/-- `Holiday` dataclass. -/
structure Holiday where
  date : String
  name : String
  moveable : Bool
  note : Option String := none
deriving DecidableEq, Repr

/-- `_nth_weekday`: the `n`-th given ISO weekday of the month. -/
def nth_weekday (y m wd n : Nat) : YMD :=
  ⟨y, m, 1 + (7 + wd - weekday ⟨y, m, 1⟩) % 7 + (n - 1) * 7⟩

/-- Easter Sunday as a `YMD` (month and day from the Computus). -/
def easterYMD (year : Nat) : YMD :=
  ⟨year, (computeEasterMonthDay year).1, (computeEasterMonthDay year).2⟩

/-- `_fixed_holidays`. -/
def fixed_holidays (year : Nat) : List Holiday :=
  [⟨natStr year ++ "-01-01", "New Year\x27s Day", false, none⟩,
   ⟨natStr year ++ "-05-23", "Labour Day", false, none⟩,
   ⟨natStr year ++ "-08-01", "Emancipation Day", false, none⟩,
   ⟨natStr year ++ "-08-06", "Independence Day", false, none⟩,
   ⟨natStr year ++ "-12-25", "Christmas Day", false, none⟩,
   ⟨natStr year ++ "-12-26", "Boxing Day", false, none⟩]

/-- `_moveable_holidays`. -/
def moveable_holidays (year : Nat) : List Holiday :=
  [⟨fmtDate (subDays (easterYMD year) 46), "Ash Wednesday", true, none⟩,
   ⟨fmtDate (subDays (easterYMD year) 2), "Good Friday", true, none⟩,
   ⟨fmtDate (addDays (easterYMD year) 1), "Easter Monday", true, none⟩,
   ⟨fmtDate (nth_weekday year 10 0 3), "National Heroes Day", true,
     some "Third Monday of October"⟩]

/-- Lexicographic comparison of character lists (Python `str <`). -/
def charsLt : List Char → List Char → Bool
  | _, [] => false
  | [], _ :: _ => true
  | a :: as, b :: bs => if a < b then true else if a = b then charsLt as bs else false

/-- Order on holidays by date string. -/
def holidayLt (a b : Holiday) : Bool := charsLt a.date.data b.date.data

/-- Stable insertion into a date-sorted list. -/
def insSorted (x : Holiday) : List Holiday → List Holiday
  | [] => [x]
  | z :: zs => if holidayLt z x then z :: insSorted x zs else x :: z :: zs

/-- Stable insertion sort by date (Python `sorted(..., key=date)`). -/
def isortByDate : List Holiday → List Holiday
  | [] => []
  | x :: xs => insSorted x (isortByDate xs)

/-- The `while _fmt(substitute) in observed_dates` loop, with fuel
`occ.length + 1` (always sufficient: the visited dates are distinct). -/
def firstFreeAux : Nat → List String → YMD → YMD
  | 0, _, d => d
  | fuel + 1, occ, d => if fmtDate d ∈ occ then firstFreeAux fuel occ (nextDay d) else d

/-- First unoccupied date at or after `d`. -/
def firstFree (occ : List String) (d : YMD) : YMD :=
  firstFreeAux (occ.length + 1) occ d

/-- The loop body of `_apply_sunday_substitution`, processing date-sorted
holidays while tracking the observed dates. -/
def subGo : List Holiday → List String → List Holiday
  | [], _ => []
  | h :: rest, occ =>
    if weekday (parseDate h.date) = 6 then
      { date := fmtDate (firstFree occ (nextDay (parseDate h.date))), name := h.name,
        moveable := h.moveable,
        note := some ("Observed (substitute for " ++ h.date ++ ")") } ::
        subGo rest (fmtDate (firstFree occ (nextDay (parseDate h.date))) :: occ)
    else if h.date ∈ occ then
      { date := fmtDate (firstFree occ (nextDay (parseDate h.date))), name := h.name,
        moveable := h.moveable,
        note := some ("Observed (shifted due to conflict on " ++ h.date ++ ")") } ::
        subGo rest (fmtDate (firstFree occ (nextDay (parseDate h.date))) :: occ)
    else h :: subGo rest (h.date :: occ)

/-- `_apply_sunday_substitution`. -/
def apply_sunday_substitution (holidays : List Holiday) : List Holiday :=
  subGo (isortByDate holidays) []

/-- `get_holidays`. -/
def get_holidays (year : Nat) : List Holiday :=
  isortByDate (apply_sunday_substitution (fixed_holidays year) ++ moveable_holidays year)

/-- Month lengths lie between 28 and 31. -/
theorem daysInMonth_bounds (y m : Nat) : 28 ≤ daysInMonth y m ∧ daysInMonth y m ≤ 31 := by
  unfold daysInMonth
  split_ifs <;> omega

/-- `daysBeforeMonth` accumulates month lengths. -/
theorem daysBeforeMonth_succ (y m : Nat) (h1 : 1 ≤ m) (h2 : m ≤ 11) :
    daysBeforeMonth y (m + 1) = daysBeforeMonth y m + daysInMonth y m := by
  cases hl : isLeap y <;> interval_cases m <;> simp [daysBeforeMonth, daysInMonth, hl]

/-- `pad2` is numerically faithful. -/
theorem charsToNat_pad2 (m : Nat) : charsToNat (pad2 m) = m := by
  unfold pad2
  by_cases h : m < 10
  · rw [if_pos h]
    show charsToNat (List.replicate 1 '0' ++ natChars m) = m
    rw [charsToNat_replicate_zero]
    exact (natChars_spec m).2.2
  · rw [if_neg h]
    exact (natChars_spec m).2.2

/-- `pad4` is numerically faithful. -/
theorem charsToNat_pad4 (y : Nat) : charsToNat (pad4 y) = y := by
  unfold pad4
  split_ifs with h1 h2 h3
  · show charsToNat (List.replicate 3 '0' ++ natChars y) = y
    rw [charsToNat_replicate_zero]; exact (natChars_spec y).2.2
  · show charsToNat (List.replicate 2 '0' ++ natChars y) = y
    rw [charsToNat_replicate_zero]; exact (natChars_spec y).2.2
  · show charsToNat (List.replicate 1 '0' ++ natChars y) = y
    rw [charsToNat_replicate_zero]; exact (natChars_spec y).2.2
  · exact (natChars_spec y).2.2

/-- Every character of `pad2` is a digit. -/
theorem pad2_digits (m : Nat) : ∀ c ∈ pad2 m, isPyDigit c = true := by
  unfold pad2
  intro c hc
  split_ifs at hc with h
  · rcases List.mem_cons.mp hc with h0 | h0
    · subst h0; rfl
    · exact (natChars_spec m).1 c h0
  · exact (natChars_spec m).1 c hc


/-- Every character of `pad4` is a digit. -/
theorem zero_cons_digits {l : List Char} (h : ∀ c ∈ l, isPyDigit c = true) :
    ∀ c ∈ '0' :: l, isPyDigit c = true := by
  intro c hc
  rcases List.mem_cons.mp hc with rfl | hc
  · rfl
  · exact h c hc

/-- Every character of `pad4` is a digit. -/
theorem pad4_digits (y : Nat) : ∀ c ∈ pad4 y, isPyDigit c = true := by
  unfold pad4
  split_ifs with h1 h2 h3
  · exact zero_cons_digits (zero_cons_digits (zero_cons_digits (natChars_spec y).1))
  · exact zero_cons_digits (zero_cons_digits (natChars_spec y).1)
  · exact zero_cons_digits (natChars_spec y).1
  · exact (natChars_spec y).1

/-- A dash never occurs among digit characters. -/
theorem dash_not_mem_of_digits {l : List Char} (h : ∀ c ∈ l, isPyDigit c = true) :
    '-' ∉ l := by
  intro hm
  have := h '-' hm
  simp [isPyDigit] at this

/-- `splitDash` on a dash-free list. -/
theorem splitDash_no_dash : ∀ l : List Char, '-' ∉ l → splitDash l = [l] := by
  intro l
  induction l with
  | nil => intro _; rfl
  | cons c rest ih =>
    intro h
    have hc : ¬ c = '-' := fun e => h (e ▸ List.mem_cons_self c rest)
    have hr : '-' ∉ rest := fun hm => h (List.mem_cons_of_mem c hm)
    simp only [splitDash, if_neg hc, ih hr]

/-- `splitDash` splits at the first dash. -/
theorem splitDash_append : ∀ (l rest : List Char), '-' ∉ l →
    splitDash (l ++ '-' :: rest) = l :: splitDash rest := by
  intro l
  induction l with
  | nil =>
    intro rest _
    show splitDash ('-' :: rest) = [] :: splitDash rest
    simp [splitDash]
  | cons c cs ih =>
    intro rest h
    have hc : ¬ c = '-' := fun e => h (e ▸ List.mem_cons_self c cs)
    have hcs : '-' ∉ cs := fun hm => h (List.mem_cons_of_mem c hm)
    show splitDash (c :: (cs ++ '-' :: rest)) = (c :: cs) :: splitDash rest
    simp only [splitDash, if_neg hc, ih rest hcs]

/-- Parsing inverts formatting on every `YMD`. -/
theorem parseDate_fmtDate (x : YMD) : parseDate (fmtDate x) = x := by
  obtain ⟨y, m, d⟩ := x
  have h4 : '-' ∉ pad4 y := dash_not_mem_of_digits (pad4_digits y)
  have h2 : '-' ∉ pad2 m := dash_not_mem_of_digits (pad2_digits m)
  have h2' : '-' ∉ pad2 d := dash_not_mem_of_digits (pad2_digits d)
  have hdata : (fmtDate (YMD.mk y m d)).data = pad4 y ++ '-' :: (pad2 m ++ '-' :: pad2 d) := by
    show (pad4 y ++ '-' :: pad2 m) ++ '-' :: pad2 d = _
    rw [List.append_assoc]
    rfl
  unfold parseDate
  rw [hdata, splitDash_append _ _ h4, splitDash_append _ _ h2, splitDash_no_dash _ h2']
  show YMD.mk (charsToNat (pad4 y)) (charsToNat (pad2 m)) (charsToNat (pad2 d)) = YMD.mk y m d
  rw [charsToNat_pad4, charsToNat_pad2, charsToNat_pad2]

/-- Formatting is injective. -/
theorem fmtDate_inj {a b : YMD} (h : fmtDate a = fmtDate b) : a = b := by
  rw [← parseDate_fmtDate a, h, parseDate_fmtDate b]

set_option maxHeartbeats 4000000 in
/-- Stepping one day forward preserves validity, keeps the year positive and
adds one to the day number (years start at 1: `date.min` is `0001-01-01`). -/
theorem rataDie_nextDay (x : YMD) (hv : ValidYMD x) (hy : 1 ≤ x.y) :
    ValidYMD (nextDay x) ∧ 1 ≤ (nextDay x).y ∧
      rataDie (nextDay x) = rataDie x + 1 := by
  obtain ⟨y, m, d⟩ := x
  simp only [ValidYMD] at hv
  simp only at hy
  obtain ⟨h1, h2, h3, h4⟩ := hv
  have hb := daysInMonth_bounds y m
  unfold nextDay
  by_cases hd : d < daysInMonth y m
  · simp only [hd, if_true]
    refine ⟨?_, ?_, ?_⟩
    · simp only [ValidYMD]
      omega
    · exact hy
    · simp only [rataDie]
      omega
  · simp only [hd, if_false]
    by_cases hm : m < 12
    · simp only [hm, if_true]
      have hb' := daysInMonth_bounds y (m + 1)
      have hs := daysBeforeMonth_succ y m h1 (by omega)
      refine ⟨?_, ?_, ?_⟩
      · simp only [ValidYMD]
        omega
      · exact hy
      · simp only [rataDie]
        omega
    · simp only [hm, if_false]
      have hm' : m = 12 := by omega
      subst hm'
      have hdim : daysInMonth y 12 = 31 := rfl
      have hd' : d = 31 := by omega
      subst hd'
      have hdbm : daysBeforeMonth y 12 = 334 + (if isLeap y then 1 else 0) := rfl
      have hdbm1 : daysBeforeMonth (y + 1) 1 = 0 := rfl
      refine ⟨?_, ?_, ?_⟩
      · simp only [ValidYMD]
        have hb1 := daysInMonth_bounds (y + 1) 1
        omega
      · show 1 ≤ y + 1
        omega
      · by_cases hl : isLeap y = true
        · have hla : y % 4 = 0 ∧ y % 100 ≠ 0 ∨ y % 400 = 0 := by
            simpa [isLeap, Bool.or_eq_true, Bool.and_eq_true, decide_eq_true_eq] using hl
          rw [if_pos hl] at hdbm
          simp only [rataDie, hdbm, hdbm1]
          omega
        · have hla : ¬(y % 4 = 0 ∧ y % 100 ≠ 0 ∨ y % 400 = 0) := by
            simpa [isLeap, Bool.or_eq_true, Bool.and_eq_true, decide_eq_true_eq] using hl
          rw [if_neg hl] at hdbm
          simp only [rataDie, hdbm, hdbm1]
          omega

/-- `nextDay` on an explicit triple. -/
theorem nextDay_mk (y m d : Nat) :
    nextDay ⟨y, m, d⟩ =
      if d < daysInMonth y m then ⟨y, m, d + 1⟩
      else if m < 12 then ⟨y, m + 1, 1⟩
      else ⟨y + 1, 1, 1⟩ := rfl

/-- `prevDay` on an explicit triple. -/
theorem prevDay_mk (y m d : Nat) :
    prevDay ⟨y, m, d⟩ =
      if 1 < d then ⟨y, m, d - 1⟩
      else if 1 < m then ⟨y, m - 1, daysInMonth y (m - 1)⟩
      else ⟨y - 1, 12, 31⟩ := rfl

/-- Shifting the start of `addDays` by one day. -/
theorem addDays_nextDay (x : YMD) (k : Nat) : addDays (nextDay x) k = addDays x (k + 1) := by
  induction k with
  | zero => rfl
  | succ k ih =>
    show nextDay (addDays (nextDay x) k) = nextDay (addDays x (k + 1))
    rw [ih]

/-- Iterated forward stepping: validity, positive year and day count. -/
theorem rataDie_addDays (x : YMD) (hv : ValidYMD x) (hy : 1 ≤ x.y) (k : Nat) :
    ValidYMD (addDays x k) ∧ 1 ≤ (addDays x k).y ∧
      rataDie (addDays x k) = rataDie x + k := by
  induction k with
  | zero => exact ⟨hv, hy, rfl⟩
  | succ k ih =>
    obtain ⟨ih1, ih2, ih3⟩ := ih
    have h := rataDie_nextDay (addDays x k) ih1 ih2
    refine ⟨h.1, h.2.1, ?_⟩
    have e : addDays x (k + 1) = nextDay (addDays x k) := rfl
    rw [e]
    omega

/-- Distinct forward offsets from a valid date give distinct dates. -/
theorem addDays_ne (x : YMD) (hv : ValidYMD x) (hy : 1 ≤ x.y) {i j : Nat} (hij : i < j) :
    addDays x i ≠ addDays x j := by
  intro e
  have hi := (rataDie_addDays x hv hy i).2.2
  have hj := (rataDie_addDays x hv hy j).2.2
  rw [e] at hi
  omega

/-- Adding days that stay inside the month. -/
theorem addDays_same_month (y m d k : Nat) (h : d + k ≤ daysInMonth y m) :
    addDays ⟨y, m, d⟩ k = ⟨y, m, d + k⟩ := by
  induction k with
  | zero => rfl
  | succ k ih =>
    have ih' := ih (by omega)
    show nextDay (addDays ⟨y, m, d⟩ k) = _
    rw [ih', nextDay_mk, if_pos (show d + k < daysInMonth y m by omega)]
    have e : d + k + 1 = d + (k + 1) := rfl
    rw [e]

/-- `subDays` composes additively. -/
theorem subDays_add (x : YMD) (a b : Nat) : subDays x (a + b) = subDays (subDays x a) b := by
  induction b with
  | zero => rfl
  | succ b ih =>
    show prevDay (subDays x (a + b)) = prevDay (subDays (subDays x a) b)
    rw [ih]

/-- Subtracting days that stay inside the month. -/
theorem subDays_same_month (y m d k : Nat) (h : k < d) :
    subDays ⟨y, m, d⟩ k = ⟨y, m, d - k⟩ := by
  induction k with
  | zero => rfl
  | succ k ih =>
    have ih' := ih (by omega)
    show prevDay (subDays ⟨y, m, d⟩ k) = _
    rw [ih', prevDay_mk, if_pos (show 1 < d - k by omega)]
    have e : d - k - 1 = d - (k + 1) := by omega
    rw [e]

/-- Subtracting exactly the day-of-month lands on the last day of the previous
month (via `prevDay` of the first of the month). -/
theorem subDays_month_start (y m d : Nat) (h1 : 1 ≤ d) :
    subDays ⟨y, m, d⟩ d = prevDay ⟨y, m, 1⟩ := by
  obtain ⟨e, rfl⟩ : ∃ e, d = e + 1 := ⟨d - 1, by omega⟩
  show prevDay (subDays ⟨y, m, e + 1⟩ e) = _
  rw [subDays_same_month y m (e + 1) e (by omega)]
  have he : e + 1 - e = 1 := by omega
  rw [he]

set_option maxHeartbeats 4000000 in
/-- The Computus lands in March 22-31 or April 1-26. -/
theorem easter_month_day_bounds (year : Nat) :
    ((computeEasterMonthDay year).1 = 3 ∧ 22 ≤ (computeEasterMonthDay year).2 ∧
      (computeEasterMonthDay year).2 ≤ 31) ∨
    ((computeEasterMonthDay year).1 = 4 ∧ 1 ≤ (computeEasterMonthDay year).2 ∧
      (computeEasterMonthDay year).2 ≤ 26) := by
  dsimp only [computeEasterMonthDay]
  omega

/-- Two dates differing in month are different. -/
theorem mk_ne_of_m {y1 y2 m1 m2 d1 d2 : Nat} (h : ¬ m1 = m2) :
    YMD.mk y1 m1 d1 ≠ YMD.mk y2 m2 d2 := fun e => h (congrArg YMD.m e)

/-- Two dates differing in day are different. -/
theorem mk_ne_of_d {y1 y2 m1 m2 d1 d2 : Nat} (h : ¬ d1 = d2) :
    YMD.mk y1 m1 d1 ≠ YMD.mk y2 m2 d2 := fun e => h (congrArg YMD.d e)

/-- Easter is either in March (day 22-31) or April (day 1-26). -/
theorem easterYMD_cases (y : Nat) :
    (∃ ed, 22 ≤ ed ∧ ed ≤ 31 ∧ easterYMD y = ⟨y, 3, ed⟩) ∨
    (∃ ed, 1 ≤ ed ∧ ed ≤ 26 ∧ easterYMD y = ⟨y, 4, ed⟩) := by
  rcases easter_month_day_bounds y with ⟨h1, h2, h3⟩ | ⟨h1, h2, h3⟩
  · exact Or.inl ⟨_, h2, h3, by unfold easterYMD; rw [h1]⟩
  · exact Or.inr ⟨_, h2, h3, by unfold easterYMD; rw [h1]⟩

/-- Month/year profile and pairwise distinctness of the moveable-holiday
dates: Ash Wednesday in February or March, Good Friday and Easter Monday in
March or April, Heroes Day in October, all in the requested year. -/
theorem moveable_profiles (y : Nat) :
    (subDays (easterYMD y) 46).y = y ∧
    (subDays (easterYMD y) 2).y = y ∧
    (addDays (easterYMD y) 1).y = y ∧
    (nth_weekday y 10 0 3).y = y ∧
    ((subDays (easterYMD y) 46).m = 2 ∨ (subDays (easterYMD y) 46).m = 3) ∧
    ((subDays (easterYMD y) 2).m = 3 ∨ (subDays (easterYMD y) 2).m = 4) ∧
    ((addDays (easterYMD y) 1).m = 3 ∨ (addDays (easterYMD y) 1).m = 4) ∧
    (nth_weekday y 10 0 3).m = 10 ∧
    subDays (easterYMD y) 46 ≠ subDays (easterYMD y) 2 ∧
    subDays (easterYMD y) 46 ≠ addDays (easterYMD y) 1 ∧
    subDays (easterYMD y) 2 ≠ addDays (easterYMD y) 1 := by
  have hhero : nth_weekday y 10 0 3 = ⟨y, 10, 1 + (7 + 0 - weekday ⟨y, 10, 1⟩) % 7 + 14⟩ :=
    rfl
  have hdim2 := daysInMonth_bounds y 2
  rcases easterYMD_cases y with ⟨ed, hlo, hhi, hE⟩ | ⟨ed, hlo, hhi, hE⟩
  · -- Easter in March
    have hgf : subDays (easterYMD y) 2 = ⟨y, 3, ed - 2⟩ := by
      rw [hE]; exact subDays_same_month y 3 ed 2 (by omega)
    have hash : subDays (easterYMD y) 46 = ⟨y, 2, daysInMonth y 2 - (46 - ed)⟩ := by
      rw [hE]
      nth_rewrite 1 [show (46 : Nat) = ed + (46 - ed) from by omega]
      rw [subDays_add, subDays_month_start y 3 ed (by omega), prevDay_mk,
        if_neg (by omega), if_pos (by omega)]
      exact subDays_same_month y 2 (daysInMonth y 2) (46 - ed) (by omega)
    by_cases hed : ed = 31
    · have hem : addDays (easterYMD y) 1 = ⟨y, 4, 1⟩ := by
        have hdim3 : daysInMonth y 3 = 31 := rfl
        rw [hE, hed]
        show nextDay ⟨y, 3, 31⟩ = _
        rw [nextDay_mk, if_neg (by omega), if_pos (by omega)]
      refine ⟨by rw [hash], by rw [hgf], by rw [hem], by rw [hhero],
        by rw [hash]; exact Or.inl rfl, by rw [hgf]; exact Or.inl rfl,
        by rw [hem]; exact Or.inr rfl, by rw [hhero],
        by rw [hash, hgf]; exact mk_ne_of_m (by omega),
        by rw [hash, hem]; exact mk_ne_of_m (by omega),
        by rw [hgf, hem]; exact mk_ne_of_m (by omega)⟩
    · have hem : addDays (easterYMD y) 1 = ⟨y, 3, ed + 1⟩ := by
        have hdim3 : daysInMonth y 3 = 31 := rfl
        rw [hE]; exact addDays_same_month y 3 ed 1 (by omega)
      refine ⟨by rw [hash], by rw [hgf], by rw [hem], by rw [hhero],
        by rw [hash]; exact Or.inl rfl, by rw [hgf]; exact Or.inl rfl,
        by rw [hem]; exact Or.inl rfl, by rw [hhero],
        by rw [hash, hgf]; exact mk_ne_of_m (by omega),
        by rw [hash, hem]; exact mk_ne_of_m (by omega),
        by rw [hgf, hem]; exact mk_ne_of_d (by omega)⟩
  · -- Easter in April
    have hdim4 : daysInMonth y 4 = 30 := rfl
    have hem : addDays (easterYMD y) 1 = ⟨y, 4, ed + 1⟩ := by
      rw [hE]; exact addDays_same_month y 4 ed 1 (by omega)
    have hash0 : subDays (easterYMD y) 46 = subDays ⟨y, 3, 31⟩ (46 - ed) := by
      rw [hE]
      nth_rewrite 1 [show (46 : Nat) = ed + (46 - ed) from by omega]
      rw [subDays_add, subDays_month_start y 4 ed (by omega), prevDay_mk,
        if_neg (by omega), if_pos (by omega)]
      rfl
    by_cases h16 : 16 ≤ ed
    · have hash : subDays (easterYMD y) 46 = ⟨y, 3, 31 - (46 - ed)⟩ := by
        rw [hash0]; exact subDays_same_month y 3 31 (46 - ed) (by omega)
      have hgf : subDays (easterYMD y) 2 = ⟨y, 4, ed - 2⟩ := by
        rw [hE]; exact subDays_same_month y 4 ed 2 (by omega)
      refine ⟨by rw [hash], by rw [hgf], by rw [hem], by rw [hhero],
        by rw [hash]; exact Or.inr rfl, by rw [hgf]; exact Or.inr rfl,
        by rw [hem]; exact Or.inr rfl, by rw [hhero],
        by rw [hash, hgf]; exact mk_ne_of_m (by omega),
        by rw [hash, hem]; exact mk_ne_of_m (by omega),
        by rw [hgf, hem]; exact mk_ne_of_d (by omega)⟩
    · have hash : subDays (easterYMD y) 46 = ⟨y, 2, daysInMonth y 2 - (15 - ed)⟩ := by
        rw [hash0, show 46 - ed = 31 + (15 - ed) from by omega, subDays_add,
          subDays_month_start y 3 31 (by omega), prevDay_mk, if_neg (by omega),
          if_pos (by omega)]
        exact subDays_same_month y 2 (daysInMonth y 2) (15 - ed) (by omega)
      by_cases h3 : 3 ≤ ed
      · have hgf : subDays (easterYMD y) 2 = ⟨y, 4, ed - 2⟩ := by
          rw [hE]; exact subDays_same_month y 4 ed 2 (by omega)
        refine ⟨by rw [hash], by rw [hgf], by rw [hem], by rw [hhero],
          by rw [hash]; exact Or.inl rfl, by rw [hgf]; exact Or.inr rfl,
          by rw [hem]; exact Or.inr rfl, by rw [hhero],
          by rw [hash, hgf]; exact mk_ne_of_m (by omega),
          by rw [hash, hem]; exact mk_ne_of_m (by omega),
          by rw [hgf, hem]; exact mk_ne_of_d (by omega)⟩
      · have hgf : subDays (easterYMD y) 2 = ⟨y, 3, 31 - (2 - ed)⟩ := by
          rw [hE]
          nth_rewrite 1 [show (2 : Nat) = ed + (2 - ed) from by omega]
          rw [subDays_add, subDays_month_start y 4 ed (by omega), prevDay_mk,
            if_neg (by omega), if_pos (by omega)]
          exact subDays_same_month y 3 31 (2 - ed) (by omega)
        refine ⟨by rw [hash], by rw [hgf], by rw [hem], by rw [hhero],
          by rw [hash]; exact Or.inl rfl, by rw [hgf]; exact Or.inl rfl,
          by rw [hem]; exact Or.inr rfl, by rw [hhero],
          by rw [hash, hgf]; exact mk_ne_of_m (by omega),
          by rw [hash, hem]; exact mk_ne_of_m (by omega),
          by rw [hgf, hem]; exact mk_ne_of_m (by omega)⟩

/-- The substitution loop finds the least free offset, given enough fuel. -/
theorem firstFreeAux_min (occ : List String) : ∀ (fuel : Nat) (d : YMD),
    (∃ i, i < fuel ∧ fmtDate (addDays d i) ∉ occ) →
    ∃ j, firstFreeAux fuel occ d = addDays d j ∧ fmtDate (addDays d j) ∉ occ ∧
      ∀ i < j, fmtDate (addDays d i) ∈ occ := by
  intro fuel
  induction fuel with
  | zero =>
    intro d h
    obtain ⟨i, hi, _⟩ := h
    omega
  | succ fuel ih =>
    intro d h
    obtain ⟨i, hi, hfree⟩ := h
    by_cases h0 : fmtDate d ∈ occ
    · have hi0 : i ≠ 0 := by
        rintro rfl
        exact hfree h0
      obtain ⟨i', rfl⟩ : ∃ i', i = i' + 1 := ⟨i - 1, by omega⟩
      have hnext : ∃ i2, i2 < fuel ∧ fmtDate (addDays (nextDay d) i2) ∉ occ :=
        ⟨i', by omega, by rw [addDays_nextDay]; exact hfree⟩
      obtain ⟨j, hj1, hj2, hj3⟩ := ih (nextDay d) hnext
      refine ⟨j + 1, ?_, ?_, ?_⟩
      · show (if fmtDate d ∈ occ then firstFreeAux fuel occ (nextDay d) else d) = _
        rw [if_pos h0, hj1, addDays_nextDay]
      · rw [← addDays_nextDay]
        exact hj2
      · intro i2 hi2
        cases i2 with
        | zero => exact h0
        | succ i3 =>
          have := hj3 i3 (by omega)
          rw [← addDays_nextDay]
          exact this
    · refine ⟨0, ?_, h0, fun i2 hi2 => absurd hi2 (by omega)⟩
      show (if fmtDate d ∈ occ then firstFreeAux fuel occ (nextDay d) else d) = _
      rw [if_neg h0]
      rfl

/-- With distinct occupied dates, a free date exists within `occ.length` steps. -/
theorem firstFree_exists_free (occ : List String) (d : YMD) (hv : ValidYMD d)
    (hy : 1 ≤ d.y) (hnd : occ.Nodup) :
    ∃ i, i ≤ occ.length ∧ fmtDate (addDays d i) ∉ occ := by
  by_contra hc
  push_neg at hc
  have hnodup : ((List.range (occ.length + 1)).map
      (fun i => fmtDate (addDays d i))).Nodup := by
    refine List.Nodup.map_on ?_ (List.nodup_range _)
    intro i1 h1 i2 h2 he
    by_contra hne
    rcases Nat.lt_or_ge i1 i2 with hlt | hge
    · exact addDays_ne d hv hy hlt (fmtDate_inj he)
    · have hlt2 : i2 < i1 := by omega
      exact addDays_ne d hv hy hlt2 (fmtDate_inj he.symm)
  have hsub : ((List.range (occ.length + 1)).map
      (fun i => fmtDate (addDays d i))) ⊆ occ := by
    intro s hs
    obtain ⟨i, hi, rfl⟩ := List.mem_map.mp hs
    exact hc i (by simp only [List.mem_range] at hi; omega)
  have hle := (List.subperm_of_subset hnodup hsub).length_le
  simp only [List.length_map, List.length_range] at hle
  omega

/-- The while loop lands on the earliest unoccupied date at or after `d`. -/
theorem firstFree_spec (occ : List String) (d : YMD) (hv : ValidYMD d)
    (hy : 1 ≤ d.y) (hnd : occ.Nodup) :
    ∃ j, j ≤ occ.length ∧ firstFree occ d = addDays d j ∧
      fmtDate (addDays d j) ∉ occ ∧ ∀ i < j, fmtDate (addDays d i) ∈ occ := by
  obtain ⟨i, hile, hifree⟩ := firstFree_exists_free occ d hv hy hnd
  obtain ⟨j, h1, h2, h3⟩ := firstFreeAux_min occ (occ.length + 1) d ⟨i, by omega, hifree⟩
  have hji : j ≤ i := by
    by_contra hcj
    push_neg at hcj
    exact hifree (h3 i hcj)
  exact ⟨j, by omega, h1, h2, h3⟩

/-! ### Sorting lemmas -/

/-- Lexicographic order is irreflexive. -/
theorem charsLt_irrefl : ∀ l : List Char, charsLt l l = false := by
  intro l
  induction l with
  | nil => rfl
  | cons c cs ih =>
    show (if c < c then true else if c = c then charsLt cs cs else false) = false
    rw [if_neg (lt_irrefl c), if_pos rfl, ih]

/-- Lexicographic order is transitive. -/
theorem charsLt_trans : ∀ a b c : List Char,
    charsLt a b = true → charsLt b c = true → charsLt a c = true := by
  intro a
  induction a with
  | nil =>
    intro b c hab hbc
    cases b with
    | nil => exact absurd hab (by rw [charsLt]; simp)
    | cons y ys =>
      cases c with
      | nil => exact absurd hbc (by rw [charsLt]; simp)
      | cons z zs => rfl
  | cons x xs ih =>
    intro b c hab hbc
    cases b with
    | nil => exact absurd hab (by rw [charsLt]; simp)
    | cons y ys =>
      cases c with
      | nil => exact absurd hbc (by rw [charsLt]; simp)
      | cons z zs =>
        have hab' : (if x < y then true else if x = y then charsLt xs ys else false)
            = true := hab
        have hbc' : (if y < z then true else if y = z then charsLt ys zs else false)
            = true := hbc
        show (if x < z then true else if x = z then charsLt xs zs else false) = true
        by_cases hxy : x < y
        · by_cases hyz : y < z
          · rw [if_pos (lt_trans hxy hyz)]
          · rw [if_neg hyz] at hbc'
            by_cases heyz : y = z
            · rw [if_pos (heyz ▸ hxy)]
            · rw [if_neg heyz] at hbc'
              exact absurd hbc' (by simp)
        · rw [if_neg hxy] at hab'
          by_cases hexy : x = y
          · rw [if_pos hexy] at hab'
            by_cases hyz : y < z
            · rw [if_pos (show x < z by rw [hexy]; exact hyz)]
            · rw [if_neg hyz] at hbc'
              by_cases heyz : y = z
              · rw [if_pos heyz] at hbc'
                rw [if_neg (show ¬ x < z by rw [hexy, heyz]; exact lt_irrefl z),
                  if_pos (hexy.trans heyz)]
                exact ih ys zs hab' hbc'
              · rw [if_neg heyz] at hbc'
                exact absurd hbc' (by simp)
          · rw [if_neg hexy] at hab'
            exact absurd hab' (by simp)

/-- Two lists neither of which lexicographically precedes the other are equal. -/
theorem charsLt_conn : ∀ a b : List Char,
    charsLt a b = false → charsLt b a = false → a = b := by
  intro a
  induction a with
  | nil =>
    intro b hab _
    cases b with
    | nil => rfl
    | cons y ys => exact absurd hab (by rw [charsLt]; simp)
  | cons x xs ih =>
    intro b hab hba
    cases b with
    | nil => exact absurd hba (by rw [charsLt]; simp)
    | cons y ys =>
      have hab' : (if x < y then true else if x = y then charsLt xs ys else false)
          = false := hab
      have hba' : (if y < x then true else if y = x then charsLt ys xs else false)
          = false := hba
      by_cases hxy : x < y
      · rw [if_pos hxy] at hab'
        exact absurd hab' (by simp)
      · by_cases hyx : y < x
        · rw [if_pos hyx] at hba'
          exact absurd hba' (by simp)
        · have hexy : x = y := le_antisymm (not_lt.mp hyx) (not_lt.mp hxy)
          rw [if_neg hxy, if_pos hexy] at hab'
          rw [if_neg hyx, if_pos hexy.symm] at hba'
          rw [hexy, ih ys hab' hba']

/-- `¬ b < a` and `b < c` give `a < c`. -/
theorem charsLt_le_lt_trans {a b c : List Char} (h1 : charsLt b a = false)
    (h2 : charsLt b c = true) : charsLt a c = true := by
  by_cases hab : charsLt a b = true
  · exact charsLt_trans a b c hab h2
  · rw [charsLt_conn a b (Bool.not_eq_true _ ▸ hab) h1]
    exact h2

/-- Order by date on holidays, as a proposition. -/
def dateLe (a b : Holiday) : Prop := charsLt b.date.data a.date.data = false

/-- Insertion preserves the multiset of holidays. -/
theorem insSorted_perm (x : Holiday) : ∀ l, List.Perm (insSorted x l) (x :: l) := by
  intro l
  induction l with
  | nil => exact List.Perm.refl _
  | cons z zs ih =>
    show (if holidayLt z x then z :: insSorted x zs else x :: z :: zs).Perm (x :: z :: zs)
    by_cases h : holidayLt z x = true
    · rw [if_pos h]
      exact (ih.cons z).trans (List.Perm.swap x z zs)
    · rw [if_neg h]

/-- Insertion into a sorted list stays sorted. -/
theorem insSorted_sorted (x : Holiday) : ∀ l, List.Pairwise dateLe l →
    List.Pairwise dateLe (insSorted x l) := by
  intro l
  induction l with
  | nil => exact fun _ => List.pairwise_singleton _ _
  | cons z zs ih =>
    intro hp
    rw [List.pairwise_cons] at hp
    obtain ⟨hz, hzs⟩ := hp
    show List.Pairwise dateLe (if holidayLt z x then z :: insSorted x zs else x :: z :: zs)
    by_cases h : holidayLt z x = true
    · rw [if_pos h]
      rw [List.pairwise_cons]
      refine ⟨?_, ih hzs⟩
      intro w hw
      have hw' : w ∈ x :: zs := (insSorted_perm x zs).mem_iff.mp hw
      rcases List.mem_cons.mp hw' with rfl | hwzs
      · show charsLt w.date.data z.date.data = false
        by_contra hc
        have hc' : charsLt w.date.data z.date.data = true := by
          cases hcc : charsLt w.date.data z.date.data
          · exact absurd hcc hc
          · rfl
        have := charsLt_trans _ _ _ h hc'
        rw [charsLt_irrefl] at this
        exact absurd this (by simp)
      · exact hz w hwzs
    · rw [if_neg h]
      rw [List.pairwise_cons]
      have hzx : charsLt z.date.data x.date.data = false := by
        cases hcc : charsLt z.date.data x.date.data
        · rfl
        · exact absurd (show holidayLt z x = true from hcc) h
      refine ⟨?_, List.pairwise_cons.mpr ⟨hz, hzs⟩⟩
      intro w hw
      rcases List.mem_cons.mp hw with rfl | hwzs
      · exact hzx
      · show charsLt w.date.data x.date.data = false
        by_contra hc
        have hc' : charsLt w.date.data x.date.data = true := by
          cases hcc : charsLt w.date.data x.date.data
          · exact absurd hcc hc
          · rfl
        have hzw : dateLe z w := hz w hwzs
        have := charsLt_le_lt_trans hzw hc'
        exact absurd (show holidayLt z x = true from this) h

/-- Insertion sort is a permutation. -/
theorem isort_perm : ∀ l, List.Perm (isortByDate l) l := by
  intro l
  induction l with
  | nil => exact List.Perm.refl _
  | cons x xs ih =>
    show (insSorted x (isortByDate xs)).Perm (x :: xs)
    exact (insSorted_perm x (isortByDate xs)).trans (ih.cons x)

/-- Insertion sort sorts. -/
theorem isort_sorted : ∀ l, List.Pairwise dateLe (isortByDate l) := by
  intro l
  induction l with
  | nil => exact List.Pairwise.nil
  | cons x xs ih => exact insSorted_sorted x (isortByDate xs) ih

/-! ### The fixed holidays parse and round-trip -/

/-- Four-digit years need no padding. -/
theorem natChars_eq_pad4 (y : Nat) (hy : 1000 ≤ y) : natChars y = pad4 y := by
  unfold pad4
  rw [if_neg (by omega), if_neg (by omega), if_neg (by omega)]

/-- A fixed-holiday date string `str(y) ++ "-MM-DD"` parses back to the
intended date, which is valid, and equals its own re-formatting. -/
theorem fixed_dateOK (y mm dd : Nat) (hy : 1000 ≤ y) (hm1 : 1 ≤ mm) (hm2 : mm ≤ 12)
    (hd1 : 1 ≤ dd) (hd2 : dd ≤ 28) :
    parseDate (natStr y ++ ⟨'-' :: (pad2 mm ++ '-' :: pad2 dd)⟩) = ⟨y, mm, dd⟩ ∧
    ValidYMD (YMD.mk y mm dd) ∧
    (natStr y ++ (⟨'-' :: (pad2 mm ++ '-' :: pad2 dd)⟩ : String)) = fmtDate ⟨y, mm, dd⟩ := by
  have hnd : '-' ∉ natChars y := dash_not_mem_of_digits (natChars_spec y).1
  have hndm : '-' ∉ pad2 mm := dash_not_mem_of_digits (pad2_digits mm)
  have hndd : '-' ∉ pad2 dd := dash_not_mem_of_digits (pad2_digits dd)
  have hdata : (natStr y ++ (⟨'-' :: (pad2 mm ++ '-' :: pad2 dd)⟩ : String)).data
      = natChars y ++ '-' :: (pad2 mm ++ '-' :: pad2 dd) := rfl
  refine ⟨?_, ?_, ?_⟩
  · unfold parseDate
    rw [hdata, splitDash_append _ _ hnd, splitDash_append _ _ hndm,
      splitDash_no_dash _ hndd]
    show YMD.mk (charsToNat (natChars y)) (charsToNat (pad2 mm)) (charsToNat (pad2 dd))
        = YMD.mk y mm dd
    rw [(natChars_spec y).2.2, charsToNat_pad2, charsToNat_pad2]
  · have hb := daysInMonth_bounds y mm
    exact ⟨hm1, hm2, hd1, by show dd ≤ daysInMonth y mm; omega⟩
  · show (⟨natChars y ++ ('-' :: (pad2 mm ++ '-' :: pad2 dd))⟩ : String)
        = ⟨pad4 y ++ '-' :: pad2 mm ++ '-' :: pad2 dd⟩
    rw [← natChars_eq_pad4 y hy]
    exact congrArg String.mk (by rw [List.append_assoc, List.cons_append])

/-- All six fixed holidays carry well-formed, round-tripping date strings. -/
theorem fixed_holidays_dateOK (y : Nat) (hy : 1000 ≤ y) :
    ∀ h ∈ fixed_holidays y, ValidYMD (parseDate h.date) ∧ 1 ≤ (parseDate h.date).y ∧
      h.date = fmtDate (parseDate h.date) := by
  intro h hmem
  unfold fixed_holidays at hmem
  simp only [List.mem_cons, List.not_mem_nil, or_false] at hmem
  have e11 : ("-01-01" : String) = ⟨'-' :: (pad2 1 ++ '-' :: pad2 1)⟩ := rfl
  have e523 : ("-05-23" : String) = ⟨'-' :: (pad2 5 ++ '-' :: pad2 23)⟩ := rfl
  have e81 : ("-08-01" : String) = ⟨'-' :: (pad2 8 ++ '-' :: pad2 1)⟩ := rfl
  have e86 : ("-08-06" : String) = ⟨'-' :: (pad2 8 ++ '-' :: pad2 6)⟩ := rfl
  have e1225 : ("-12-25" : String) = ⟨'-' :: (pad2 12 ++ '-' :: pad2 25)⟩ := rfl
  have e1226 : ("-12-26" : String) = ⟨'-' :: (pad2 12 ++ '-' :: pad2 26)⟩ := rfl
  rcases hmem with rfl | rfl | rfl | rfl | rfl | rfl
  · have hok := fixed_dateOK y 1 1 hy (by omega) (by omega) (by omega) (by omega)
    show ValidYMD (parseDate (natStr y ++ "-01-01")) ∧
      1 ≤ (parseDate (natStr y ++ "-01-01")).y ∧
      natStr y ++ "-01-01" = fmtDate (parseDate (natStr y ++ "-01-01"))
    rw [e11, hok.1]
    exact ⟨hok.2.1, by show 1 ≤ y; omega, hok.2.2⟩
  · have hok := fixed_dateOK y 5 23 hy (by omega) (by omega) (by omega) (by omega)
    show ValidYMD (parseDate (natStr y ++ "-05-23")) ∧
      1 ≤ (parseDate (natStr y ++ "-05-23")).y ∧
      natStr y ++ "-05-23" = fmtDate (parseDate (natStr y ++ "-05-23"))
    rw [e523, hok.1]
    exact ⟨hok.2.1, by show 1 ≤ y; omega, hok.2.2⟩
  · have hok := fixed_dateOK y 8 1 hy (by omega) (by omega) (by omega) (by omega)
    show ValidYMD (parseDate (natStr y ++ "-08-01")) ∧
      1 ≤ (parseDate (natStr y ++ "-08-01")).y ∧
      natStr y ++ "-08-01" = fmtDate (parseDate (natStr y ++ "-08-01"))
    rw [e81, hok.1]
    exact ⟨hok.2.1, by show 1 ≤ y; omega, hok.2.2⟩
  · have hok := fixed_dateOK y 8 6 hy (by omega) (by omega) (by omega) (by omega)
    show ValidYMD (parseDate (natStr y ++ "-08-06")) ∧
      1 ≤ (parseDate (natStr y ++ "-08-06")).y ∧
      natStr y ++ "-08-06" = fmtDate (parseDate (natStr y ++ "-08-06"))
    rw [e86, hok.1]
    exact ⟨hok.2.1, by show 1 ≤ y; omega, hok.2.2⟩
  · have hok := fixed_dateOK y 12 25 hy (by omega) (by omega) (by omega) (by omega)
    show ValidYMD (parseDate (natStr y ++ "-12-25")) ∧
      1 ≤ (parseDate (natStr y ++ "-12-25")).y ∧
      natStr y ++ "-12-25" = fmtDate (parseDate (natStr y ++ "-12-25"))
    rw [e1225, hok.1]
    exact ⟨hok.2.1, by show 1 ≤ y; omega, hok.2.2⟩
  · have hok := fixed_dateOK y 12 26 hy (by omega) (by omega) (by omega) (by omega)
    show ValidYMD (parseDate (natStr y ++ "-12-26")) ∧
      1 ≤ (parseDate (natStr y ++ "-12-26")).y ∧
      natStr y ++ "-12-26" = fmtDate (parseDate (natStr y ++ "-12-26"))
    rw [e1226, hok.1]
    exact ⟨hok.2.1, by show 1 ≤ y; omega, hok.2.2⟩

/-- A `Forall₂` relation yields a related input for every output element. -/
theorem forall2_mem_right {R : Holiday → Holiday → Prop} :
    ∀ {l l' : List Holiday}, List.Forall₂ R l l' → ∀ b ∈ l', ∃ a ∈ l, R a b := by
  intro l l' h
  induction h with
  | nil =>
    intro b hb
    exact absurd hb (List.not_mem_nil b)
  | cons hr ht ih =>
    intro b hb
    rcases List.mem_cons.mp hb with rfl | hb'
    · exact ⟨_, List.mem_cons_self _ _, hr⟩
    · obtain ⟨a, ha, hab⟩ := ih b hb'
      exact ⟨a, List.mem_cons_of_mem _ ha, hab⟩

/-- One unfolding step of the substitution loop. -/
theorem subGo_cons (h : Holiday) (rest : List Holiday) (occ : List String) :
    subGo (h :: rest) occ =
      if weekday (parseDate h.date) = 6 then
        { date := fmtDate (firstFree occ (nextDay (parseDate h.date))), name := h.name,
          moveable := h.moveable,
          note := some ("Observed (substitute for " ++ h.date ++ ")") } ::
          subGo rest (fmtDate (firstFree occ (nextDay (parseDate h.date))) :: occ)
      else if h.date ∈ occ then
        { date := fmtDate (firstFree occ (nextDay (parseDate h.date))), name := h.name,
          moveable := h.moveable,
          note := some ("Observed (shifted due to conflict on " ++ h.date ++ ")") } ::
          subGo rest (fmtDate (firstFree occ (nextDay (parseDate h.date))) :: occ)
      else h :: subGo rest (h.date :: occ) := rfl

/-- Structure of the substitution loop: names and moveable flags are preserved
positionally, every observed date is the original date advanced by at most `n`
days (for any `n` bounding `occ.length` plus the number of holidays), the
observed dates are pairwise distinct, and none collides with the incoming
occupied set. -/
theorem subGo_spec : ∀ (l : List Holiday) (occ : List String) (n : Nat),
    occ.length + l.length ≤ n →
    (∀ h ∈ l, ValidYMD (parseDate h.date) ∧ 1 ≤ (parseDate h.date).y ∧
      h.date = fmtDate (parseDate h.date)) →
    occ.Nodup →
    List.Forall₂ (fun h h' => h'.name = h.name ∧ h'.moveable = h.moveable ∧
      ∃ k, k ≤ n ∧ h'.date = fmtDate (addDays (parseDate h.date) k)) l (subGo l occ) ∧
    ((subGo l occ).map Holiday.date).Nodup ∧
    (∀ s ∈ (subGo l occ).map Holiday.date, s ∉ occ) := by
  intro l
  induction l with
  | nil =>
    intro occ n hn hOK hnd
    refine ⟨List.Forall₂.nil, List.nodup_nil, ?_⟩
    intro s hs
    exact absurd hs (List.not_mem_nil s)
  | cons h rest ih =>
    intro occ n hn hOK hnd
    obtain ⟨hv, hy1, heq⟩ := hOK h (List.mem_cons_self h rest)
    have hOKrest : ∀ g ∈ rest, ValidYMD (parseDate g.date) ∧ 1 ≤ (parseDate g.date).y ∧
        g.date = fmtDate (parseDate g.date) :=
      fun g hg => hOK g (List.mem_cons_of_mem h hg)
    have hn' : occ.length + rest.length + 1 ≤ n := by
      simp only [List.length_cons] at hn
      omega
    by_cases hsun : weekday (parseDate h.date) = 6
    · rw [subGo_cons, if_pos hsun]
      obtain ⟨hv', hy', -⟩ := rataDie_nextDay (parseDate h.date) hv hy1
      obtain ⟨j, hjle, hFF, hfree, -⟩ :=
        firstFree_spec occ (nextDay (parseDate h.date)) hv' hy' hnd
      have htd_eq : fmtDate (firstFree occ (nextDay (parseDate h.date)))
          = fmtDate (addDays (parseDate h.date) (j + 1)) := by
        rw [hFF, addDays_nextDay]
      have htd_free : fmtDate (firstFree occ (nextDay (parseDate h.date))) ∉ occ := by
        rw [hFF]
        exact hfree
      have hnd' : (fmtDate (firstFree occ (nextDay (parseDate h.date))) :: occ).Nodup :=
        List.nodup_cons.mpr ⟨htd_free, hnd⟩
      obtain ⟨ihF, ihN, ihA⟩ :=
        ih (fmtDate (firstFree occ (nextDay (parseDate h.date))) :: occ) n
          (by simp only [List.length_cons]; omega) hOKrest hnd'
      refine ⟨?_, ?_, ?_⟩
      · exact List.Forall₂.cons ⟨rfl, rfl, j + 1, by omega, htd_eq⟩ ihF
      · simp only [List.map_cons]
        refine List.nodup_cons.mpr ⟨?_, ihN⟩
        intro hmem
        exact (ihA _ hmem) (List.mem_cons_self _ _)
      · simp only [List.map_cons]
        intro s hs
        rcases List.mem_cons.mp hs with rfl | hs'
        · exact htd_free
        · intro hso
          exact (ihA s hs') (List.mem_cons_of_mem _ hso)
    · by_cases hconf : h.date ∈ occ
      · rw [subGo_cons, if_neg hsun, if_pos hconf]
        obtain ⟨hv', hy', -⟩ := rataDie_nextDay (parseDate h.date) hv hy1
        obtain ⟨j, hjle, hFF, hfree, -⟩ :=
          firstFree_spec occ (nextDay (parseDate h.date)) hv' hy' hnd
        have htd_eq : fmtDate (firstFree occ (nextDay (parseDate h.date)))
            = fmtDate (addDays (parseDate h.date) (j + 1)) := by
          rw [hFF, addDays_nextDay]
        have htd_free : fmtDate (firstFree occ (nextDay (parseDate h.date))) ∉ occ := by
          rw [hFF]
          exact hfree
        have hnd' : (fmtDate (firstFree occ (nextDay (parseDate h.date))) :: occ).Nodup :=
          List.nodup_cons.mpr ⟨htd_free, hnd⟩
        obtain ⟨ihF, ihN, ihA⟩ :=
          ih (fmtDate (firstFree occ (nextDay (parseDate h.date))) :: occ) n
            (by simp only [List.length_cons]; omega) hOKrest hnd'
        refine ⟨?_, ?_, ?_⟩
        · exact List.Forall₂.cons ⟨rfl, rfl, j + 1, by omega, htd_eq⟩ ihF
        · simp only [List.map_cons]
          refine List.nodup_cons.mpr ⟨?_, ihN⟩
          intro hmem
          exact (ihA _ hmem) (List.mem_cons_self _ _)
        · simp only [List.map_cons]
          intro s hs
          rcases List.mem_cons.mp hs with rfl | hs'
          · exact htd_free
          · intro hso
            exact (ihA s hs') (List.mem_cons_of_mem _ hso)
      · rw [subGo_cons, if_neg hsun, if_neg hconf]
        have hnd' : (h.date :: occ).Nodup := List.nodup_cons.mpr ⟨hconf, hnd⟩
        obtain ⟨ihF, ihN, ihA⟩ :=
          ih (h.date :: occ) n (by simp only [List.length_cons]; omega) hOKrest hnd'
        refine ⟨?_, ?_, ?_⟩
        · exact List.Forall₂.cons ⟨rfl, rfl, 0, by omega, heq⟩ ihF
        · simp only [List.map_cons]
          refine List.nodup_cons.mpr ⟨?_, ihN⟩
          intro hmem
          exact (ihA _ hmem) (List.mem_cons_self _ _)
        · simp only [List.map_cons]
          intro s hs
          rcases List.mem_cons.mp hs with rfl | hs'
          · exact hconf
          · intro hso
            exact (ihA s hs') (List.mem_cons_of_mem _ hso)

/-- Every observed fixed-holiday date is a date in month 1, 5, 8 or 12 of the
requested year, or (Boxing Day displaced across New Year) January 1 of the
next year. -/
theorem subbed_fixed_profile (y : Nat) (hy : 1000 ≤ y) :
    ∀ s ∈ (apply_sunday_substitution (fixed_holidays y)).map Holiday.date,
      ∃ a : YMD, s = fmtDate a ∧
        ((a.y = y ∧ (a.m = 1 ∨ a.m = 5 ∨ a.m = 8 ∨ a.m = 12)) ∨ a = ⟨y + 1, 1, 1⟩) := by
  have hFdateOK : ∀ h ∈ isortByDate (fixed_holidays y),
      ValidYMD (parseDate h.date) ∧ 1 ≤ (parseDate h.date).y ∧
        h.date = fmtDate (parseDate h.date) :=
    fun h hh => fixed_holidays_dateOK y hy h ((isort_perm (fixed_holidays y)).mem_iff.mp hh)
  have hFlen : (isortByDate (fixed_holidays y)).length = 6 := by
    rw [(isort_perm (fixed_holidays y)).length_eq]
    rfl
  obtain ⟨hF2, -, -⟩ := subGo_spec (isortByDate (fixed_holidays y)) [] 6
    (by simp only [List.length_nil, hFlen]; omega) hFdateOK List.nodup_nil
  intro s hs
  obtain ⟨h', hh', rfl⟩ := List.mem_map.mp hs
  obtain ⟨h0, hh0, -, -, k, hkb, hdate⟩ := forall2_mem_right hF2 h' hh'
  have hh0' : h0 ∈ fixed_holidays y := (isort_perm (fixed_holidays y)).mem_iff.mp hh0
  have e11 : ("-01-01" : String) = ⟨'-' :: (pad2 1 ++ '-' :: pad2 1)⟩ := rfl
  have e523 : ("-05-23" : String) = ⟨'-' :: (pad2 5 ++ '-' :: pad2 23)⟩ := rfl
  have e81 : ("-08-01" : String) = ⟨'-' :: (pad2 8 ++ '-' :: pad2 1)⟩ := rfl
  have e86 : ("-08-06" : String) = ⟨'-' :: (pad2 8 ++ '-' :: pad2 6)⟩ := rfl
  have e1225 : ("-12-25" : String) = ⟨'-' :: (pad2 12 ++ '-' :: pad2 25)⟩ := rfl
  have e1226 : ("-12-26" : String) = ⟨'-' :: (pad2 12 ++ '-' :: pad2 26)⟩ := rfl
  unfold fixed_holidays at hh0'
  simp only [List.mem_cons, List.not_mem_nil, or_false] at hh0'
  rcases hh0' with rfl | rfl | rfl | rfl | rfl | rfl
  · dsimp only at hdate
    rw [e11, (fixed_dateOK y 1 1 hy (by omega) (by omega) (by omega) (by omega)).1]
      at hdate
    have hdim : daysInMonth y 1 = 31 := rfl
    have ha : addDays ⟨y, 1, 1⟩ k = ⟨y, 1, 1 + k⟩ :=
      addDays_same_month y 1 1 k (by omega)
    rw [ha] at hdate
    exact ⟨⟨y, 1, 1 + k⟩, hdate, Or.inl ⟨rfl, Or.inl rfl⟩⟩
  · dsimp only at hdate
    rw [e523, (fixed_dateOK y 5 23 hy (by omega) (by omega) (by omega) (by omega)).1]
      at hdate
    have hdim : daysInMonth y 5 = 31 := rfl
    have ha : addDays ⟨y, 5, 23⟩ k = ⟨y, 5, 23 + k⟩ :=
      addDays_same_month y 5 23 k (by omega)
    rw [ha] at hdate
    exact ⟨⟨y, 5, 23 + k⟩, hdate, Or.inl ⟨rfl, Or.inr (Or.inl rfl)⟩⟩
  · dsimp only at hdate
    rw [e81, (fixed_dateOK y 8 1 hy (by omega) (by omega) (by omega) (by omega)).1]
      at hdate
    have hdim : daysInMonth y 8 = 31 := rfl
    have ha : addDays ⟨y, 8, 1⟩ k = ⟨y, 8, 1 + k⟩ :=
      addDays_same_month y 8 1 k (by omega)
    rw [ha] at hdate
    exact ⟨⟨y, 8, 1 + k⟩, hdate, Or.inl ⟨rfl, Or.inr (Or.inr (Or.inl rfl))⟩⟩
  · dsimp only at hdate
    rw [e86, (fixed_dateOK y 8 6 hy (by omega) (by omega) (by omega) (by omega)).1]
      at hdate
    have hdim : daysInMonth y 8 = 31 := rfl
    have ha : addDays ⟨y, 8, 6⟩ k = ⟨y, 8, 6 + k⟩ :=
      addDays_same_month y 8 6 k (by omega)
    rw [ha] at hdate
    exact ⟨⟨y, 8, 6 + k⟩, hdate, Or.inl ⟨rfl, Or.inr (Or.inr (Or.inl rfl))⟩⟩
  · dsimp only at hdate
    rw [e1225, (fixed_dateOK y 12 25 hy (by omega) (by omega) (by omega) (by omega)).1]
      at hdate
    have hdim : daysInMonth y 12 = 31 := rfl
    have ha : addDays ⟨y, 12, 25⟩ k = ⟨y, 12, 25 + k⟩ :=
      addDays_same_month y 12 25 k (by omega)
    rw [ha] at hdate
    exact ⟨⟨y, 12, 25 + k⟩, hdate, Or.inl ⟨rfl, Or.inr (Or.inr (Or.inr rfl))⟩⟩
  · dsimp only at hdate
    rw [e1226, (fixed_dateOK y 12 26 hy (by omega) (by omega) (by omega) (by omega)).1]
      at hdate
    have hdim : daysInMonth y 12 = 31 := rfl
    by_cases hk5 : k ≤ 5
    · have ha : addDays ⟨y, 12, 26⟩ k = ⟨y, 12, 26 + k⟩ :=
        addDays_same_month y 12 26 k (by omega)
      rw [ha] at hdate
      exact ⟨⟨y, 12, 26 + k⟩, hdate, Or.inl ⟨rfl, Or.inr (Or.inr (Or.inr rfl))⟩⟩
    · have hk6 : k = 6 := by omega
      subst hk6
      have ha5 : addDays ⟨y, 12, 26⟩ 5 = ⟨y, 12, 31⟩ :=
        addDays_same_month y 12 26 5 (by omega)
      have ha : addDays (⟨y, 12, 26⟩ : YMD) 6 = ⟨y + 1, 1, 1⟩ := by
        show nextDay (addDays ⟨y, 12, 26⟩ 5) = _
        rw [ha5, nextDay_mk, if_neg (by omega), if_neg (by omega)]
      rw [ha] at hdate
      exact ⟨⟨y + 1, 1, 1⟩, hdate, Or.inr rfl⟩

/-- Every moveable-holiday date lies in month 2, 3, 4 or 10 of the requested
year. -/
theorem moveable_profile (y : Nat) :
    ∀ s ∈ (moveable_holidays y).map Holiday.date,
      ∃ b : YMD, s = fmtDate b ∧ b.y = y ∧
        (b.m = 2 ∨ b.m = 3 ∨ b.m = 4 ∨ b.m = 10) := by
  obtain ⟨hay, hgy, hey, hhy, ham, hgm, hem2, hhm, -, -, -⟩ := moveable_profiles y
  intro s hs
  simp only [moveable_holidays, List.map_cons, List.map_nil, List.mem_cons,
    List.not_mem_nil, or_false] at hs
  rcases hs with rfl | rfl | rfl | rfl
  · exact ⟨_, rfl, hay, ham.imp id Or.inl⟩
  · exact ⟨_, rfl, hgy, Or.inr (hgm.imp id Or.inl)⟩
  · exact ⟨_, rfl, hey, Or.inr (hem2.imp id Or.inl)⟩
  · exact ⟨_, rfl, hhy, Or.inr (Or.inr (Or.inr hhm))⟩

/-- The four moveable-holiday dates are pairwise distinct strings. -/
theorem moveable_dates_nodup (y : Nat) :
    ((moveable_holidays y).map Holiday.date).Nodup := by
  obtain ⟨hay, hgy, hey, hhy, ham, hgm, hem2, hhm, hne1, hne2, hne3⟩ := moveable_profiles y
  simp only [moveable_holidays, List.map_cons, List.map_nil]
  refine List.nodup_cons.mpr ⟨?_, List.nodup_cons.mpr ⟨?_,
    List.nodup_cons.mpr ⟨?_, List.nodup_singleton _⟩⟩⟩
  · simp only [List.mem_cons, List.not_mem_nil, or_false]
    rintro (he | he | he)
    · exact hne1 (fmtDate_inj he)
    · exact hne2 (fmtDate_inj he)
    · have heq := fmtDate_inj he
      rw [heq] at ham
      omega
  · simp only [List.mem_cons, List.not_mem_nil, or_false]
    rintro (he | he)
    · exact hne3 (fmtDate_inj he)
    · have heq := fmtDate_inj he
      rw [heq] at hgm
      omega
  · simp only [List.mem_cons, List.not_mem_nil, or_false]
    intro he
    have heq := fmtDate_inj he
    rw [heq] at hem2
    omega

/-- C10: for every year in the modelled domain, `get_holidays` returns exactly
10 holidays (the 6 fixed observances and the 4 moveable feasts), sorted in
nondecreasing date order, with pairwise distinct observed dates. -/
theorem get_holidays_invariants (y : Nat) (h1 : 1000 ≤ y) (h2 : y ≤ 9999) :
    (get_holidays y).length = 10 ∧
    List.Pairwise dateLe (get_holidays y) ∧
    ((get_holidays y).map Holiday.date).Nodup := by
  have hFdateOK : ∀ h ∈ isortByDate (fixed_holidays y),
      ValidYMD (parseDate h.date) ∧ 1 ≤ (parseDate h.date).y ∧
        h.date = fmtDate (parseDate h.date) :=
    fun h hh => fixed_holidays_dateOK y h1 h ((isort_perm (fixed_holidays y)).mem_iff.mp hh)
  have hFlen : (isortByDate (fixed_holidays y)).length = 6 := by
    rw [(isort_perm (fixed_holidays y)).length_eq]
    rfl
  obtain ⟨hF2, hSnd, -⟩ := subGo_spec (isortByDate (fixed_holidays y)) [] 6
    (by simp only [List.length_nil, hFlen]; omega) hFdateOK List.nodup_nil
  have hSlen : (subGo (isortByDate (fixed_holidays y)) []).length = 6 := by
    rw [← hF2.length_eq, hFlen]
  have hG : get_holidays y =
      isortByDate (subGo (isortByDate (fixed_holidays y)) [] ++ moveable_holidays y) :=
    rfl
  refine ⟨?_, ?_, ?_⟩
  · rw [hG, (isort_perm _).length_eq, List.length_append, hSlen]
    rfl
  · rw [hG]
    exact isort_sorted _
  · rw [hG]
    rw [((isort_perm _).map Holiday.date).nodup_iff, List.map_append]
    refine List.Nodup.append hSnd (moveable_dates_nodup y) ?_
    intro s hsS hsM
    obtain ⟨a, rfl, hacase⟩ := subbed_fixed_profile y h1 s hsS
    obtain ⟨b, hab, hby, hbm⟩ := moveable_profile y _ hsM
    have hab' : a = b := fmtDate_inj hab
    rcases hacase with ⟨hay, ham⟩ | rfl
    · rw [hab'] at ham
      rcases ham with h | h | h | h <;> rcases hbm with g | g | g | g <;> omega
    · rw [← hab'] at hby
      have hby' : y + 1 = y := hby
      omega

/-- Witness for C10 at the concrete year 2025. -/
theorem get_holidays_invariants_witness :
    (1000 ≤ 2025 ∧ 2025 ≤ 9999) ∧
    ((get_holidays 2025).length = 10 ∧
      List.Pairwise dateLe (get_holidays 2025) ∧
      ((get_holidays 2025).map Holiday.date).Nodup) :=
  ⟨⟨by decide, by decide⟩, get_holidays_invariants 2025 (by decide) (by decide)⟩

/-! ### The Sunday-substitution rule against its specification (claim C6) -/

/-- The head of a filtered range is the least satisfying index. -/
theorem headD_filter_range (p : Nat → Bool) (n j df : Nat) (hj : j < n) (hpj : p j = true)
    (hmin : ∀ i < j, p i = false) : ((List.range n).filter p).headD df = j := by
  have hn : n = (j + 1) + (n - (j + 1)) := by omega
  rw [hn, List.range_add, List.filter_append]
  have h2 : (List.range j).filter p = [] := by
    rw [List.filter_eq_nil_iff]
    intro a ha
    rw [List.mem_range] at ha
    simp [hmin a ha]
  have h1 : (List.range (j + 1)).filter p = [j] := by
    rw [List.range_succ, List.filter_append, h2]
    simp [List.filter, hpj]
  rw [h1]
  rfl

/-- The specification's "next unoccupied date": the least number of days to
advance `d` so that its formatted date is not among the observed dates. -/
def leastFreeOffset (occ : List String) (d : YMD) : Nat :=
  ((List.range (occ.length + 1)).filter
    (fun j => !(decide (fmtDate (addDays d j) ∈ occ)))).headD (occ.length + 1)

/-- The Sunday-shift rule exactly as the claim words it: process the holidays
in date order; one falling on Sunday is observed on the following Monday
advanced to the next unoccupied date, one whose own date is already occupied
is advanced to the next unoccupied date, and all others keep their dates. -/
def specShift : List Holiday → List String → List Holiday
  | [], _ => []
  | h :: rest, occ =>
    if weekday (parseDate h.date) = 6 then
      { date := fmtDate (addDays (nextDay (parseDate h.date))
          (leastFreeOffset occ (nextDay (parseDate h.date)))), name := h.name,
        moveable := h.moveable,
        note := some ("Observed (substitute for " ++ h.date ++ ")") } ::
        specShift rest (fmtDate (addDays (nextDay (parseDate h.date))
          (leastFreeOffset occ (nextDay (parseDate h.date)))) :: occ)
    else if h.date ∈ occ then
      { date := fmtDate (addDays (nextDay (parseDate h.date))
          (leastFreeOffset occ (nextDay (parseDate h.date)))), name := h.name,
        moveable := h.moveable,
        note := some ("Observed (shifted due to conflict on " ++ h.date ++ ")") } ::
        specShift rest (fmtDate (addDays (nextDay (parseDate h.date))
          (leastFreeOffset occ (nextDay (parseDate h.date)))) :: occ)
    else h :: specShift rest (h.date :: occ)

/-- One unfolding step of the specification recursion. -/
theorem specShift_cons (h : Holiday) (rest : List Holiday) (occ : List String) :
    specShift (h :: rest) occ =
      if weekday (parseDate h.date) = 6 then
        { date := fmtDate (addDays (nextDay (parseDate h.date))
            (leastFreeOffset occ (nextDay (parseDate h.date)))), name := h.name,
          moveable := h.moveable,
          note := some ("Observed (substitute for " ++ h.date ++ ")") } ::
          specShift rest (fmtDate (addDays (nextDay (parseDate h.date))
            (leastFreeOffset occ (nextDay (parseDate h.date)))) :: occ)
      else if h.date ∈ occ then
        { date := fmtDate (addDays (nextDay (parseDate h.date))
            (leastFreeOffset occ (nextDay (parseDate h.date)))), name := h.name,
          moveable := h.moveable,
          note := some ("Observed (shifted due to conflict on " ++ h.date ++ ")") } ::
          specShift rest (fmtDate (addDays (nextDay (parseDate h.date))
            (leastFreeOffset occ (nextDay (parseDate h.date)))) :: occ)
      else h :: specShift rest (h.date :: occ) := rfl

/-- The while loop computes exactly the least free offset. -/
theorem firstFree_eq_leastFreeOffset (occ : List String) (d : YMD) (hv : ValidYMD d)
    (hy : 1 ≤ d.y) (hnd : occ.Nodup) :
    firstFree occ d = addDays d (leastFreeOffset occ d) := by
  obtain ⟨j, hjle, hFF, hfree, hminmem⟩ := firstFree_spec occ d hv hy hnd
  have hlfo : leastFreeOffset occ d = j := by
    unfold leastFreeOffset
    refine headD_filter_range _ _ _ _ (by omega) ?_ ?_
    · show (!(decide (fmtDate (addDays d j) ∈ occ))) = true
      rw [decide_eq_false hfree]
      rfl
    · intro i hi
      show (!(decide (fmtDate (addDays d i) ∈ occ))) = false
      rw [decide_eq_true (hminmem i hi)]
      rfl
  rw [hlfo, hFF]

/-- On well-formed date-sorted holidays, the source loop and the
specification recursion agree. -/
theorem subGo_eq_specShift : ∀ (l : List Holiday) (occ : List String),
    (∀ h ∈ l, ValidYMD (parseDate h.date) ∧ 1 ≤ (parseDate h.date).y ∧
      h.date = fmtDate (parseDate h.date)) →
    occ.Nodup →
    subGo l occ = specShift l occ := by
  intro l
  induction l with
  | nil =>
    intro occ _ _
    rfl
  | cons h rest ih =>
    intro occ hOK hnd
    obtain ⟨hv, hy1, heq⟩ := hOK h (List.mem_cons_self h rest)
    have hOKrest : ∀ g ∈ rest, ValidYMD (parseDate g.date) ∧ 1 ≤ (parseDate g.date).y ∧
        g.date = fmtDate (parseDate g.date) :=
      fun g hg => hOK g (List.mem_cons_of_mem h hg)
    obtain ⟨hv', hy', -⟩ := rataDie_nextDay (parseDate h.date) hv hy1
    have hFFeq : firstFree occ (nextDay (parseDate h.date)) =
        addDays (nextDay (parseDate h.date))
          (leastFreeOffset occ (nextDay (parseDate h.date))) :=
      firstFree_eq_leastFreeOffset occ _ hv' hy' hnd
    obtain ⟨j, hjle, hFF, hfree, -⟩ :=
      firstFree_spec occ (nextDay (parseDate h.date)) hv' hy' hnd
    have htd_free : fmtDate (firstFree occ (nextDay (parseDate h.date))) ∉ occ := by
      rw [hFF]
      exact hfree
    by_cases hsun : weekday (parseDate h.date) = 6
    · rw [subGo_cons, if_pos hsun, specShift_cons, if_pos hsun, ← hFFeq]
      exact congrArg (List.cons _)
        (ih (fmtDate (firstFree occ (nextDay (parseDate h.date))) :: occ) hOKrest
          (List.nodup_cons.mpr ⟨htd_free, hnd⟩))
    · by_cases hconf : h.date ∈ occ
      · rw [subGo_cons, if_neg hsun, if_pos hconf, specShift_cons, if_neg hsun,
          if_pos hconf, ← hFFeq]
        exact congrArg (List.cons _)
          (ih (fmtDate (firstFree occ (nextDay (parseDate h.date))) :: occ) hOKrest
            (List.nodup_cons.mpr ⟨htd_free, hnd⟩))
      · rw [subGo_cons, if_neg hsun, if_neg hconf, specShift_cons, if_neg hsun,
          if_neg hconf]
        exact congrArg (List.cons _)
          (ih (h.date :: occ) hOKrest (List.nodup_cons.mpr ⟨hconf, hnd⟩))

/-- C6: for every year in the modelled domain, `get_holidays` applies the
Sunday-shift rule exactly: the four moveable holidays pass through unchanged
(and are the only moveable entries of the result); the six fixed holidays are
processed in date order by a recursion that observes a Sunday holiday on the
following Monday advanced to the next unoccupied date, advances a holiday
whose own date is occupied likewise, and keeps every other holiday on its
calendar date; and the source's while loop indeed lands on the earliest
unoccupied date, scanning forward day by day. -/
theorem sunday_substitution_correct (y : Nat) (h1 : 1000 ≤ y) (h2 : y ≤ 9999) :
    (∀ h ∈ moveable_holidays y, h ∈ get_holidays y) ∧
    (∀ h ∈ get_holidays y, h.moveable = true → h ∈ moveable_holidays y) ∧
    apply_sunday_substitution (fixed_holidays y) =
      specShift (isortByDate (fixed_holidays y)) [] ∧
    (∀ (occ : List String) (d : YMD), occ.Nodup → ValidYMD d → 1 ≤ d.y →
      ∃ j, j ≤ occ.length ∧ firstFree occ d = addDays d j ∧
        fmtDate (addDays d j) ∉ occ ∧ ∀ i < j, fmtDate (addDays d i) ∈ occ) := by
  have hFdateOK : ∀ h ∈ isortByDate (fixed_holidays y),
      ValidYMD (parseDate h.date) ∧ 1 ≤ (parseDate h.date).y ∧
        h.date = fmtDate (parseDate h.date) :=
    fun h hh => fixed_holidays_dateOK y h1 h ((isort_perm (fixed_holidays y)).mem_iff.mp hh)
  have hFlen : (isortByDate (fixed_holidays y)).length = 6 := by
    rw [(isort_perm (fixed_holidays y)).length_eq]
    rfl
  have hG : get_holidays y =
      isortByDate (subGo (isortByDate (fixed_holidays y)) [] ++ moveable_holidays y) :=
    rfl
  refine ⟨?_, ?_, ?_, ?_⟩
  · intro h hm
    rw [hG]
    exact (isort_perm _).mem_iff.mpr (List.mem_append_right _ hm)
  · intro h hm hmov
    rw [hG] at hm
    have hm' : h ∈ subGo (isortByDate (fixed_holidays y)) [] ++ moveable_holidays y :=
      (isort_perm _).mem_iff.mp hm
    rcases List.mem_append.mp hm' with hS | hM
    · obtain ⟨hF2, -, -⟩ := subGo_spec (isortByDate (fixed_holidays y)) [] 6
        (by simp only [List.length_nil, hFlen]; omega) hFdateOK List.nodup_nil
      obtain ⟨h0, hh0, -, hmv, -⟩ := forall2_mem_right hF2 h hS
      have hh0' : h0 ∈ fixed_holidays y := (isort_perm (fixed_holidays y)).mem_iff.mp hh0
      have hfalse : h0.moveable = false := by
        unfold fixed_holidays at hh0'
        simp only [List.mem_cons, List.not_mem_nil, or_false] at hh0'
        rcases hh0' with rfl | rfl | rfl | rfl | rfl | rfl <;> rfl
      rw [hmv, hfalse] at hmov
      exact Bool.noConfusion hmov
    · exact hM
  · exact subGo_eq_specShift (isortByDate (fixed_holidays y)) [] hFdateOK List.nodup_nil
  · intro occ d hnd hv hy
    exact firstFree_spec occ d hv hy hnd

/-- Witness for C6 at the concrete year 2025. -/
theorem sunday_substitution_correct_witness :
    (1000 ≤ 2025 ∧ 2025 ≤ 9999) ∧
    ((∀ h ∈ moveable_holidays 2025, h ∈ get_holidays 2025) ∧
      (∀ h ∈ get_holidays 2025, h.moveable = true → h ∈ moveable_holidays 2025) ∧
      apply_sunday_substitution (fixed_holidays 2025) =
        specShift (isortByDate (fixed_holidays 2025)) [] ∧
      (∀ (occ : List String) (d : YMD), occ.Nodup → ValidYMD d → 1 ≤ d.y →
        ∃ j, j ≤ occ.length ∧ firstFree occ d = addDays d j ∧
          fmtDate (addDays d j) ∉ occ ∧ ∀ i < j, fmtDate (addDays d i) ∈ occ)) :=
  ⟨⟨by decide, by decide⟩, sunday_substitution_correct 2025 (by decide) (by decide)⟩

/-! ### Ambient state of `generate_test_trn` and `get_next_holiday` (claim C7)

`generate_test_trn` draws digits from the process-global `random` generator;
the drawn digit stream is made an explicit input here, with fuel for the
retry loop (`none` only when the fuel is exhausted).  Likewise
`get_next_holiday` reads `date.today()` when called without `from_date`;
`today` is the explicit ambient input of the embedding. -/

